import Mathlib

/-! Image discovery of `pkg/prowgen/prowgen_images_discovery.go`.

A shallow embedding of the pull-string parser `orgRepoTagFromPullString`, of the key
rendering `orgRepoTag.String`, of the aggregation loop of `discoverInputImages`, of the
scanner `getPullStringsFromDockerfile` and of `discoverImages`, followed by the properties
proved about them.

Go strings are modelled as lists of characters.  The separators the code splits on
(`/`, `:`) and joins with (`_`) are ASCII, so splitting a UTF-8 text by character is the
same as splitting it by byte, and the byte-wise order of `sort.Strings` is the
lexicographic order of the code points.
-/

namespace Prowgen

/-- A Go `string`. -/
abbrev Str := List Char

/-! ## Library functions used by the source -/

namespace strings

/-- Go `strings.Split(s, sep)` for a one-character separator: the pieces of `s` between
the occurrences of `sep`.  A string without `sep` (the empty string too) gives the
one-element slice holding the string itself. -/
def Split (s : Str) (sep : Char) : List Str :=
  match s with
  | [] => [[]]
  | c :: cs =>
    if c = sep then [] :: Split cs sep
    else
      match Split cs sep with
      | [] => [[c]]
      | seg :: segs => (c :: seg) :: segs

end strings

namespace sort

/-- Go `sort.Strings`: the ascending rearrangement of the slice, strings compared
lexicographically. -/
def Strings (a : List Str) : List Str :=
  List.insertionSort (fun x y => x ≤ y) a

end sort

namespace sets

/-- The type `sets.String` of `k8s.io/apimachinery/pkg/util/sets`: a set of strings,
represented by a list without repetition. -/
abbrev StringSet := List Str

/-- The method `sets.String.Insert` for one item. -/
def Insert (s : StringSet) (item : Str) : StringSet :=
  if item ∈ s then s else item :: s

/-- The constructor `sets.NewString(items...)`: the empty set with every item inserted. -/
def NewString (items : List Str) : StringSet :=
  items.foldl Insert []

/-- The method `sets.String.List`: the members as a sorted slice. -/
def sortedList (s : StringSet) : List Str :=
  sort.Strings s

end sets

/-- A Go `map[string]V`: the value stored under each key, `none` for an absent key. -/
abbrev GoMap (V : Type) := Str → Option V

namespace GoMap

/-- The result of `make(map[string]V)`. -/
def empty {V : Type} : GoMap V := fun _ => none

/-- The assignment `m[k] = v`. -/
def set {V : Type} (m : GoMap V) (k : Str) (v : V) : GoMap V :=
  fun k' => if k' = k then some v else m k'

/-- The index expression `m[k]`: the stored value, or the zero value of `V`. -/
def index {V : Type} (zero : V) (m : GoMap V) (k : Str) : V :=
  (m k).getD zero

end GoMap

/-! ## Data model -/

/-- The struct `orgRepoTag` (lines 19-23). -/
structure orgRepoTag where
  Org : Str
  Repo : Str
  Tag : Str
deriving DecidableEq, Repr

/-- The fields of `cioperatorapi.ImageStreamTagReference` that the source sets
(lines 103-107). -/
structure ImageStreamTagReference where
  Namespace : Str
  Name : Str
  Tag : Str
deriving DecidableEq, Repr

/-- The field of `cioperatorapi.ImageBuildInputs` that the source reads and writes
(lines 109-111); its zero value has no alias. -/
structure ImageBuildInputs where
  As : List Str
deriving DecidableEq, Repr

/-- The zero value of `ImageBuildInputs`, what `inputImages[key]` gives for an absent key. -/
def ImageBuildInputs.zero : ImageBuildInputs := { As := [] }

/-- The errors built with `fmt.Errorf`, each carrying what its message is formatted from. -/
inductive Error where
  /-- Line 159: the pull string and the number of its segments. -/
  | segmentCount (pullString : Str) (n : Nat)
  /-- Line 100: the image path that failed to parse, and the cause. -/
  | parsePullspec (imagePath : Str) (cause : Error)
  /-- Line 91: the cause reported by `getPullStringsFromDockerfile`. -/
  | getPullImages (cause : Error)
  /-- Line 120: the Dockerfile could not be opened. -/
  | openDockerfile (filename : Str)
  /-- Line 139: the Dockerfile could not be read to its end. -/
  | readDockerfile (filename : Str)
  /-- Line 83: the glob over the directory failed. -/
  | discoverDockerfilesGlob (dir : Str)
  /-- Line 62: the run-time panic of the slice expression `[2:]` on a path with fewer than
  two segments; an abnormal end of the call rather than a returned error value. -/
  | sliceBounds (dockerfile : Str)
deriving DecidableEq, Repr

/-! ## The functions of the source -/

/-- The method `orgRepoTag.String` (lines 25-27). -/
def orgRepoTag.String (ort : orgRepoTag) : Str :=
  ort.Org ++ "_".toList ++ ort.Repo ++ "_".toList ++ ort.Tag

/-- Lines 161-164 of `orgRepoTagFromPullString`: when splitting `res.Repo` on `:` gives
exactly two parts they become `Repo` and `Tag`; otherwise `res` is left as it is. -/
def splitRepoTag (res : orgRepoTag) : orgRepoTag :=
  match strings.Split res.Repo ':' with
  | [repo, tag] => { res with Repo := repo, Tag := tag }
  | _ => res

/-- The function `orgRepoTagFromPullString` (lines 145-167). -/
def orgRepoTagFromPullString (pullString : Str) : Except Error orgRepoTag :=
  let res : orgRepoTag := { Org := [], Repo := [], Tag := "latest".toList }
  let slashSplit := strings.Split pullString '/'
  match slashSplit with
  | [s0] => .ok (splitRepoTag { res with Org := "_".toList, Repo := s0 })
  | [s0, s1] => .ok (splitRepoTag { res with Org := s0, Repo := s1 })
  | [_, s1, s2] => .ok (splitRepoTag { res with Org := s1, Repo := s2 })
  | _ => .error (.segmentCount pullString slashSplit.length)

/-- The loop of `discoverInputImages` (lines 97-112) over the pull strings that are left,
with the two maps built so far. -/
def discoverInputImagesLoop :
    List Str → GoMap ImageStreamTagReference → GoMap ImageBuildInputs →
      Except Error (GoMap ImageStreamTagReference × GoMap ImageBuildInputs)
  | [], requiredBaseImages, inputImages => .ok (requiredBaseImages, inputImages)
  | imagePath :: rest, requiredBaseImages, inputImages =>
    match orgRepoTagFromPullString imagePath with
    | .error err => .error (.parsePullspec imagePath err)
    | .ok ort =>
      let requiredBaseImages := requiredBaseImages.set ort.String
        { Namespace := ort.Org, Name := ort.Repo, Tag := ort.Tag }
      let inputs := GoMap.index ImageBuildInputs.zero inputImages ort.String
      let inputs := { inputs with
        As := sets.sortedList (sets.Insert (sets.NewString inputs.As) imagePath) }
      discoverInputImagesLoop rest requiredBaseImages (inputImages.set ort.String inputs)

/-- The function `discoverInputImages` (lines 88-115).  Reading the Dockerfile is the
parameter `getPullStrings`, which stands for `getPullStringsFromDockerfile` on the file
system of the call. -/
def discoverInputImages (getPullStrings : Str → Except Error (List Str)) (dockerfile : Str) :
    Except Error (GoMap ImageStreamTagReference × GoMap ImageBuildInputs) :=
  match getPullStrings dockerfile with
  | .error err => .error (.getPullImages err)
  | .ok imagePaths => discoverInputImagesLoop imagePaths GoMap.empty GoMap.empty

/-! ## The scanner and the discovery of build files -/

namespace strings

/-- Go `strings.HasPrefix(s, p)`. -/
def HasPrefix : Str → Str → Bool
  | _, [] => true
  | [], _ :: _ => false
  | c :: cs, p :: ps => decide (c = p) && HasPrefix cs ps

/-- Go `strings.Contains(s, substr)`: whether `substr` starts at some position of `s`. -/
def Contains : Str → Str → Bool
  | [], substr => HasPrefix [] substr
  | c :: cs, substr => HasPrefix (c :: cs) substr || Contains cs substr

/-- Go `strings.Join(elems, sep)`. -/
def Join : List Str → Str → Str
  | [], _ => []
  | [a], _ => a
  | a :: b :: rest, sep => a ++ sep ++ Join (b :: rest) sep

end strings

namespace os

/-- The constant `os.PathSeparator` (Unix). -/
def PathSeparator : Char := '/'

end os

namespace regexp

/-- The fragment of Go regular expressions in which `registryRegex` is written. -/
inductive Regexp where
  /-- A run of literal characters. -/
  | literal (s : Str)
  /-- The empty expression, as the first branch of `(|svc\.)`. -/
  | emptyMatch
  /-- The alternation `a|b`, the left branch preferred. -/
  | alternate (a b : Regexp)
  /-- The concatenation `ab`. -/
  | concat (a b : Regexp)
  /-- The greedy repetition `c+` of a character class `c`. -/
  | classPlus (cls : Char → Bool)

/-- The class `\s` of Go regular expressions, `[\t\n\f\r ]`. -/
def isSpace (c : Char) : Bool :=
  c = '\t' || c = '\n' || c = '\x0c' || c = '\r' || c = ' '

/-- The class `\S`. -/
def notSpace (c : Char) : Bool := !isSpace c

/-- The rest of the input after the literal `l`, when the input starts with it. -/
def stripLiteral : Str → Str → Option Str
  | [], s => some s
  | _ :: _, [] => none
  | p :: ps, c :: cs => if c = p then stripLiteral ps cs else none

/-- The ways `c+` matches at the start of the input, as pairs of the matched text and the
rest, the longest match first. -/
def plusRuns (cls : Char → Bool) : Str → List (Str × Str)
  | [] => []
  | c :: cs =>
    if cls c then (plusRuns cls cs).map (fun mr => (c :: mr.1, mr.2)) ++ [([c], cs)]
    else []

/-- The ways an expression matches at the start of the input, as pairs of the matched text
and the rest, in the order in which a backtracking search finds them. -/
def Regexp.matchings : Regexp → Str → List (Str × Str)
  | .literal l, s =>
    match stripLiteral l s with
    | some rest => [(l, rest)]
    | none => []
  | .emptyMatch, s => [([], s)]
  | .alternate a b, s => a.matchings s ++ b.matchings s
  | .concat a b, s =>
    (a.matchings s).flatMap
      (fun m1 => (b.matchings m1.2).map (fun m2 => (m1.1 ++ m2.1, m2.2)))
  | .classPlus cls, s => plusRuns cls s

/-- The match that starts at the start of the input: the first one found. -/
def Regexp.matchAt (re : Regexp) (s : Str) : Option Str :=
  ((re.matchings s).head?).map Prod.fst

/-- The method `(*Regexp).FindString`: the text of the leftmost match, with leftmost-first
preference among the matches that start there; the empty string when there is none. -/
def Regexp.FindString (re : Regexp) : Str → Str
  | [] => (re.matchAt []).getD []
  | c :: cs =>
    match re.matchAt (c :: cs) with
    | some m => m
    | none => Regexp.FindString re cs

end regexp

/-- The variable `registryRegex` (line 17), the expression
`registry\.(|svc\.)ci\.openshift\.org/\S+`. -/
def registryRegex : regexp.Regexp :=
  .concat (.literal "registry.".toList)
    (.concat (.alternate .emptyMatch (.literal "svc.".toList))
      (.concat (.literal "ci.openshift.org/".toList) (.classPlus regexp.notSpace)))

/-- What the source observes of a file it opens: the lines that `scanner.Scan()` delivers
before it stops, and whether `scanner.Err()` is non-nil afterwards. -/
structure DockerfileRead where
  lines : List Str
  scanErr : Bool

/-- The part of the standard library whose results depend on the machine of the call. -/
structure Host where
  /-- The calls `os.Open` and `bufio.NewScanner` on a file name; `none` when the file
  cannot be opened. -/
  Open : Str → Option DockerfileRead
  /-- The call `filepath.Glob` on a pattern; `none` when the pattern is malformed. -/
  Glob : Str → Option (List Str)
  /-- The call `filepath.Join` on path elements. -/
  Join : List Str → Str

/-- Modelled from the spec: the type `imageContext` and its constants `ProductionContext`
and `TestContext` are declared outside the file; the build context is `Production` or
`Test`. -/
inductive imageContext where
  | ProductionContext
  | TestContext
deriving DecidableEq, Repr

/-- Modelled from the spec: the type `Repository` is declared outside the file; of it the
source uses only the method `RepositoryDirectory()`, the repository root path. -/
structure Repository where
  RepositoryDirectory : Str
deriving DecidableEq, Repr

/-- Modelled from the spec: the struct `ImageInput` is declared outside the file; these are
the fields of the composite literal of lines 60-64. -/
structure ImageInput where
  Context : imageContext
  DockerfilePath : Str
  Inputs : GoMap ImageBuildInputs

/-- Modelled from the spec: the type `ReleaseBuildConfigurationOption` and the constructors
`WithBaseImages`, `WithImage` and `ProjectDirectoryImageBuildStepConfigurationFuncFromImageInput`
are declared outside the file; an option is kept as the data it is built from. -/
inductive ReleaseBuildConfigurationOption where
  /-- The option `WithBaseImages(requiredBaseImages)`. -/
  | WithBaseImages (baseImages : GoMap ImageStreamTagReference)
  /-- The option
  `WithImage(ProjectDirectoryImageBuildStepConfigurationFuncFromImageInput(r, input))`. -/
  | WithImage (r : Repository) (input : ImageInput)

/-- The loop of `getPullStringsFromDockerfile` (lines 124-136) over the lines that are
left, with the slice `images` built so far. -/
def getPullStringsLoop : List Str → List Str → List Str
  | [], images => images
  | line :: rest, images =>
    if !strings.Contains line "FROM ".toList then getPullStringsLoop rest images
    else
      let found := registryRegex.FindString line
      if found ≠ [] then getPullStringsLoop rest (images ++ [found])
      else getPullStringsLoop rest images

/-- The function `getPullStringsFromDockerfile` (lines 117-143), on what opening and
scanning the file gives. -/
def getPullStringsFromDockerfile (openFile : Str → Option DockerfileRead) (filename : Str) :
    Except Error (List Str) :=
  match openFile filename with
  | none => .error (.openDockerfile filename)
  | some file =>
    let images := getPullStringsLoop file.lines []
    if file.scanErr then .error (.readDockerfile filename) else .ok images

/-- The function `discoverImageContext` (lines 71-77). -/
def discoverImageContext (dockerfile : Str) : imageContext :=
  if strings.Contains dockerfile "test-images".toList then .TestContext
  else .ProductionContext

/-- The function `discoverDockerfiles` (lines 79-86). -/
def discoverDockerfiles (host : Host) (r : Repository) : Except Error (List Str) :=
  let dir := host.Join [r.RepositoryDirectory, "openshift".toList, "ci-operator".toList]
  match host.Glob (host.Join [dir, "**".toList, "**".toList, "Dockerfile".toList]) with
  | none => .error (.discoverDockerfilesGlob dir)
  | some dockerfiles => .ok dockerfiles

/-- The expression for `DockerfilePath` on line 62: the path without its first two
segments; `none` when the path has fewer than two segments and the slice expression
panics. -/
def dockerfilePath (dockerfile : Str) : Option Str :=
  let segments := strings.Split dockerfile os.PathSeparator
  if 2 ≤ segments.length then some (strings.Join (segments.drop 2) [os.PathSeparator])
  else none

/-- The loop of `discoverImages` (lines 52-66) over the Dockerfiles that are left, with
the slice `options` built so far. -/
def discoverImagesLoop (getPullStrings : Str → Except Error (List Str)) (r : Repository) :
    List Str → List ReleaseBuildConfigurationOption →
      Except Error (List ReleaseBuildConfigurationOption)
  | [], options => .ok options
  | dockerfile :: rest, options =>
    match discoverInputImages getPullStrings dockerfile with
    | .error err => .error err
    | .ok (requiredBaseImages, inputImages) =>
      match dockerfilePath dockerfile with
      | none => .error (.sliceBounds dockerfile)
      | some path =>
        discoverImagesLoop getPullStrings r rest
          (options ++ [.WithBaseImages requiredBaseImages,
            .WithImage r
              { Context := discoverImageContext dockerfile
                DockerfilePath := path
                Inputs := inputImages }])

/-- The function `discoverImages` (lines 41-69). -/
def discoverImages (host : Host) (r : Repository) :
    Except Error (List ReleaseBuildConfigurationOption) :=
  match discoverDockerfiles host r with
  | .error err => .error err
  | .ok dockerfiles =>
    discoverImagesLoop (getPullStringsFromDockerfile host.Open) r (sort.Strings dockerfiles) []

/-- Follows the words of the specification: `found` is a registry reference standing at
the start of `rest`, that is `registry.ci.openshift.org/` or
`registry.svc.ci.openshift.org/` followed by a maximal run of one or more non-whitespace
characters. -/
def IsReferenceAt (rest found : Str) : Prop :=
  ∃ registry run tail,
    (registry = "registry.ci.openshift.org/".toList ∨
      registry = "registry.svc.ci.openshift.org/".toList) ∧
    rest = registry ++ run ++ tail ∧ found = registry ++ run ∧ run ≠ [] ∧
    (∀ c ∈ run, regexp.isSpace c = false) ∧
    (∀ c, tail.head? = some c → regexp.isSpace c = true)

/-! ## Example inputs -/

/-- A build file of the example repository, in a production directory. -/
def exampleFileA : Str := "o/r/openshift/ci-operator/knative-images/a/Dockerfile".toList

/-- A build file of the example repository, in a test directory. -/
def exampleFileB : Str := "o/r/openshift/ci-operator/knative-test-images/b/Dockerfile".toList

/-- The example repository, with the root `o/r`. -/
def exampleRepository : Repository := { RepositoryDirectory := "o/r".toList }

/-- The lines of `exampleFileA`. -/
def exampleLinesA : List Str :=
  ["FROM registry.ci.openshift.org/ocp/builder:golang AS builder".toList,
    "RUN make build".toList,
    "FROM registry.svc.ci.openshift.org/ocp/builder:golang".toList]

/-- The lines of `exampleFileB`. -/
def exampleLinesB : List Str :=
  ["FROM registry.ci.openshift.org/base".toList, "FROM busybox".toList]

/-- A machine on which the glob finds `exampleFileB` before `exampleFileA`. -/
def exampleHost : Host where
  Open := fun f =>
    if f = exampleFileA then some ⟨exampleLinesA, false⟩
    else if f = exampleFileB then some ⟨exampleLinesB, false⟩
    else none
  Glob := fun _ => some [exampleFileB, exampleFileA]
  Join := fun elems => strings.Join elems "/".toList

/-- The machine `exampleHost` with the glob finding the two files in the other order. -/
def exampleHostSwapped : Host where
  Open := exampleHost.Open
  Glob := fun _ => some [exampleFileA, exampleFileB]
  Join := exampleHost.Join

/-- The machine `exampleHost` with a reference of four segments in `exampleFileB`. -/
def exampleHostMalformed : Host where
  Open := fun f =>
    if f = exampleFileA then some ⟨exampleLinesA, false⟩
    else if f = exampleFileB then
      some ⟨["FROM registry.ci.openshift.org/x/y/z".toList], false⟩
    else none
  Glob := fun _ => some [exampleFileB, exampleFileA]
  Join := fun elems => strings.Join elems "/".toList

/-! ## Splitting -/

theorem Split_ne_nil (s : Str) (sep : Char) : strings.Split s sep ≠ [] := by
  induction s with
  | nil => simp [strings.Split]
  | cons c cs ih =>
    unfold strings.Split
    split
    · simp
    · split <;> simp

theorem Split_cons_sep (cs : Str) (sep : Char) :
    strings.Split (sep :: cs) sep = [] :: strings.Split cs sep := by
  simp [strings.Split]

theorem Split_cons_ne (c : Char) (cs : Str) (sep : Char) (h : c ≠ sep) :
    ∃ seg segs, strings.Split cs sep = seg :: segs ∧
      strings.Split (c :: cs) sep = (c :: seg) :: segs := by
  cases hs : strings.Split cs sep with
  | nil => exact absurd hs (Split_ne_nil cs sep)
  | cons seg segs =>
    refine ⟨seg, segs, rfl, ?_⟩
    rw [strings.Split, if_neg h, hs]

theorem Split_of_not_mem (s : Str) (sep : Char) (h : sep ∉ s) : strings.Split s sep = [s] := by
  induction s with
  | nil => rfl
  | cons c cs ih =>
    have hc : c ≠ sep := fun e => h (by simp [e])
    have hcs : sep ∉ cs := fun e => h (by simp [e])
    rw [strings.Split, if_neg hc, ih hcs]

theorem Split_append_sep (a rest : Str) (sep : Char) (h : sep ∉ a) :
    strings.Split (a ++ sep :: rest) sep = a :: strings.Split rest sep := by
  induction a with
  | nil => simp [Split_cons_sep]
  | cons c cs ih =>
    have hc : c ≠ sep := fun e => h (by simp [e])
    have hcs : sep ∉ cs := fun e => h (by simp [e])
    rw [List.cons_append, strings.Split, if_neg hc, ih hcs]

theorem length_Split (s : Str) (sep : Char) :
    (strings.Split s sep).length = s.count sep + 1 := by
  induction s with
  | nil => rfl
  | cons c cs ih =>
    by_cases hc : c = sep
    · subst hc
      rw [Split_cons_sep, List.length_cons, ih, List.count_cons_self]
    · obtain ⟨seg, segs, h1, h2⟩ := Split_cons_ne c cs sep hc
      rw [h2, List.length_cons, List.count_cons_of_ne (Ne.symm hc), ← ih, h1, List.length_cons]

theorem exists_first_sep (s : Str) (sep : Char) (h : sep ∈ s) :
    ∃ a b, s = a ++ sep :: b ∧ sep ∉ a := by
  induction s with
  | nil => simp at h
  | cons c cs ih =>
    by_cases hc : c = sep
    · exact ⟨[], cs, by simp [hc], by simp⟩
    · have hcs : sep ∈ cs := by
        rcases List.mem_cons.mp h with e | e
        · exact absurd e.symm hc
        · exact e
      obtain ⟨a, b, hab, ha⟩ := ih hcs
      refine ⟨c :: a, b, by simp [hab], ?_⟩
      intro hm
      rcases List.mem_cons.mp hm with e | e
      · exact hc e.symm
      · exact ha e

/-- A string with exactly one separator splits into the text before it and the text
after it. -/
theorem Split_count_one (r : Str) (sep : Char) (h : r.count sep = 1) :
    ∃ a b, r = a ++ sep :: b ∧ sep ∉ a ∧ sep ∉ b ∧ strings.Split r sep = [a, b] := by
  have hmem : sep ∈ r := List.count_pos_iff.mp (by omega)
  obtain ⟨a, b, hab, ha⟩ := exists_first_sep r sep hmem
  have hb : sep ∉ b := by
    have hc : (a ++ sep :: b).count sep = 1 := hab ▸ h
    rw [List.count_append, List.count_cons_self, List.count_eq_zero_of_not_mem ha] at hc
    exact fun hm => by
      have := List.count_pos_iff.mpr hm
      omega
  exact ⟨a, b, hab, ha, hb, by rw [hab, Split_append_sep a b sep ha, Split_of_not_mem b sep hb]⟩

theorem append_sep_inj (sep : Char) (a b x y : Str) (ha : sep ∉ a) (hb : sep ∉ b)
    (h : a ++ sep :: x = b ++ sep :: y) : a = b ∧ x = y := by
  induction a generalizing b with
  | nil =>
    cases b with
    | nil => simpa using h
    | cons d ds =>
      simp only [List.nil_append, List.cons_append, List.cons.injEq] at h
      exact absurd (by simp [h.1]) hb
  | cons c cs ih =>
    cases b with
    | nil =>
      simp only [List.nil_append, List.cons_append, List.cons.injEq] at h
      exact absurd (by simp [h.1]) ha
    | cons d ds =>
      simp only [List.cons_append, List.cons.injEq] at h
      have hcs : sep ∉ cs := fun e => ha (by simp [e])
      have hds : sep ∉ ds := fun e => hb (by simp [e])
      obtain ⟨e1, e2⟩ := ih ds hcs hds h.2
      exact ⟨by rw [h.1, e1], e2⟩

/-! ## The parser -/

theorem splitRepoTag_Org (res : orgRepoTag) : (splitRepoTag res).Org = res.Org := by
  unfold splitRepoTag
  split <;> rfl

theorem splitRepoTag_of_count_ne_one (res : orgRepoTag) (h : res.Repo.count ':' ≠ 1) :
    splitRepoTag res = res := by
  unfold splitRepoTag
  split
  · rename_i repo tag heq
    have hl := length_Split res.Repo ':'
    rw [heq] at hl
    simp at hl
    omega
  · rfl

theorem splitRepoTag_of_count_one (res : orgRepoTag) (h : res.Repo.count ':' = 1) :
    ∃ a b, res.Repo = a ++ ':' :: b ∧ ':' ∉ a ∧ ':' ∉ b ∧
      splitRepoTag res = { res with Repo := a, Tag := b } := by
  obtain ⟨a, b, hab, ha, hb, hs⟩ := Split_count_one res.Repo ':' h
  refine ⟨a, b, hab, ha, hb, ?_⟩
  unfold splitRepoTag
  rw [hs]

/-- The value of the parser in terms of the segments of the pull string. -/
theorem orgRepoTagFromPullString_eq (s : Str) :
    orgRepoTagFromPullString s =
      match strings.Split s '/' with
      | [s0] => .ok (splitRepoTag ⟨"_".toList, s0, "latest".toList⟩)
      | [s0, s1] => .ok (splitRepoTag ⟨s0, s1, "latest".toList⟩)
      | [_, s1, s2] => .ok (splitRepoTag ⟨s1, s2, "latest".toList⟩)
      | segs => .error (.segmentCount s segs.length) := by
  unfold orgRepoTagFromPullString
  simp only
  split <;> simp_all

/-- What an accepted pull string is parsed to: the namespace is chosen by the number of
segments, and the last segment is the repository segment handed to `splitRepoTag`. -/
theorem orgRepoTagFromPullString_ok (s : Str) (t : orgRepoTag)
    (hok : orgRepoTagFromPullString s = .ok t) :
    ∃ o r, (strings.Split s '/').getLast? = some r ∧
      t = splitRepoTag ⟨o, r, "latest".toList⟩ ∧
      ((strings.Split s '/' = [r] ∧ o = "_".toList) ∨ strings.Split s '/' = [o, r] ∨
        ∃ h, strings.Split s '/' = [h, o, r]) := by
  have heq := orgRepoTagFromPullString_eq s
  rw [hok] at heq
  match hs : strings.Split s '/' with
  | [] => exact absurd hs (Split_ne_nil s '/')
  | [s0] =>
    rw [hs] at heq
    simp only [Except.ok.injEq] at heq
    exact ⟨_, s0, rfl, heq, Or.inl ⟨rfl, rfl⟩⟩
  | [s0, s1] =>
    rw [hs] at heq
    simp only [Except.ok.injEq] at heq
    exact ⟨s0, s1, rfl, heq, Or.inr (Or.inl rfl)⟩
  | [s0, s1, s2] =>
    rw [hs] at heq
    simp only [Except.ok.injEq] at heq
    exact ⟨s1, s2, rfl, heq, Or.inr (Or.inr ⟨s0, rfl⟩)⟩
  | s0 :: s1 :: s2 :: s3 :: rest =>
    rw [hs] at heq
    simp at heq

/-- The repository and the tag of an accepted pull string in terms of the number of `:`
in its last segment `r`. -/
theorem repo_tag_of_ok (s : Str) (t : orgRepoTag) (r : Str)
    (hok : orgRepoTagFromPullString s = .ok t)
    (hr : (strings.Split s '/').getLast? = some r) :
    (r.count ':' = 1 → r = t.Repo ++ ':' :: t.Tag ∧ ':' ∉ t.Tag) ∧
    (r.count ':' ≠ 1 → t.Tag = "latest".toList) := by
  obtain ⟨o, r', hr', ht, _⟩ := orgRepoTagFromPullString_ok s t hok
  rw [hr] at hr'
  cases hr'
  constructor
  · intro h1
    obtain ⟨a, b, hab, _, hb, hsplit⟩ :=
      splitRepoTag_of_count_one ⟨o, r, "latest".toList⟩ h1
    rw [hsplit] at ht
    subst ht
    exact ⟨hab, hb⟩
  · intro h1
    rw [splitRepoTag_of_count_ne_one ⟨o, r, "latest".toList⟩ h1] at ht
    subst ht
    rfl

/-! ## The set of aliases and the aggregation loop -/

theorem mem_Insert (s : sets.StringSet) (item x : Str) :
    x ∈ sets.Insert s item ↔ x ∈ s ∨ x = item := by
  unfold sets.Insert
  split
  · constructor
    · exact Or.inl
    · rintro (h | h)
      · exact h
      · subst h
        assumption
  · simp [or_comm]

theorem nodup_Insert (s : sets.StringSet) (item : Str) (h : s.Nodup) :
    (sets.Insert s item).Nodup := by
  unfold sets.Insert
  split
  · exact h
  · exact List.nodup_cons.mpr ⟨by assumption, h⟩

theorem foldl_Insert_spec (items : List Str) (acc : sets.StringSet) (hacc : acc.Nodup) :
    (items.foldl sets.Insert acc).Nodup ∧
      ∀ x, x ∈ items.foldl sets.Insert acc ↔ x ∈ acc ∨ x ∈ items := by
  induction items generalizing acc with
  | nil => simp [hacc]
  | cons i is ih =>
    obtain ⟨h1, h2⟩ := ih (sets.Insert acc i) (nodup_Insert acc i hacc)
    refine ⟨h1, ?_⟩
    intro x
    rw [List.foldl_cons, h2, mem_Insert, List.mem_cons]
    tauto

theorem NewString_spec (items : List Str) :
    (sets.NewString items).Nodup ∧ ∀ x, x ∈ sets.NewString items ↔ x ∈ items := by
  obtain ⟨h1, h2⟩ := foldl_Insert_spec items [] List.nodup_nil
  refine ⟨h1, ?_⟩
  intro x
  unfold sets.NewString
  rw [h2]
  simp

theorem sortedList_spec (s : sets.StringSet) (hs : s.Nodup) :
    List.Sorted (fun x y => x < y) (sets.sortedList s) ∧ ∀ x, x ∈ sets.sortedList s ↔ x ∈ s := by
  unfold sets.sortedList sort.Strings
  constructor
  · apply List.Sorted.lt_of_le (List.sorted_insertionSort _ s)
    exact (List.perm_insertionSort _ s).nodup_iff.mpr hs
  · intro x
    exact List.mem_insertionSort _

/-- One update of an alias list (line 110): the new list is strictly ascending and holds
the old aliases and the new image path. -/
theorem alias_update_spec (As : List Str) (imagePath : Str) :
    List.Sorted (fun x y => x < y)
        (sets.sortedList (sets.Insert (sets.NewString As) imagePath)) ∧
      ∀ x, x ∈ sets.sortedList (sets.Insert (sets.NewString As) imagePath) ↔
        x ∈ As ∨ x = imagePath := by
  obtain ⟨h1, h2⟩ := NewString_spec As
  obtain ⟨h3, h4⟩ := sortedList_spec _ (nodup_Insert _ imagePath h1)
  refine ⟨h3, ?_⟩
  intro x
  rw [h4, mem_Insert, h2]

/-- Indexing the alias map after an assignment. -/
theorem index_set (m : GoMap ImageBuildInputs) (k k' : Str) (v : ImageBuildInputs) :
    GoMap.index ImageBuildInputs.zero (m.set k v) k' =
      if k' = k then v else GoMap.index ImageBuildInputs.zero m k' := by
  unfold GoMap.index GoMap.set
  split <;> rfl

/-- The aggregation loop on pull strings that all parse: it succeeds, a key is absent
from the alias map afterwards when it was absent before and no pull string renders to it,
the aliases under a key are those there before and the pull strings rendering to it, and
ascending alias lists stay ascending. -/
theorem discoverInputImagesLoop_spec (l : List Str)
    (req : GoMap ImageStreamTagReference) (inp : GoMap ImageBuildInputs)
    (hparse : ∀ p ∈ l, ∃ t, orgRepoTagFromPullString p = .ok t) :
    ∃ req' inp', discoverInputImagesLoop l req inp = .ok (req', inp') ∧
      (∀ k, inp' k = none ↔
        (inp k = none ∧ ∀ p ∈ l, ∀ t, orgRepoTagFromPullString p = .ok t → t.String ≠ k)) ∧
      (∀ k x, x ∈ (GoMap.index ImageBuildInputs.zero inp' k).As ↔
        (x ∈ (GoMap.index ImageBuildInputs.zero inp k).As ∨
          (x ∈ l ∧ ∃ t, orgRepoTagFromPullString x = .ok t ∧ t.String = k))) ∧
      (∀ k, List.Sorted (fun x y => x < y) (GoMap.index ImageBuildInputs.zero inp k).As →
        List.Sorted (fun x y => x < y) (GoMap.index ImageBuildInputs.zero inp' k).As) := by
  induction l generalizing req inp with
  | nil =>
    refine ⟨req, inp, rfl, ?_, ?_, ?_⟩
    · intro k
      simp
    · intro k x
      simp
    · intro k h
      exact h
  | cons p rest ih =>
    obtain ⟨t, ht⟩ := hparse p (List.mem_cons_self p rest)
    have hrest : ∀ q ∈ rest, ∃ t, orgRepoTagFromPullString q = .ok t :=
      fun q hq => hparse q (List.mem_cons_of_mem p hq)
    obtain ⟨hsorted, hmem⟩ :=
      alias_update_spec (GoMap.index ImageBuildInputs.zero inp t.String).As p
    obtain ⟨req', inp', hloop, hnone, hAs, hSorted⟩ :=
      ih (req.set t.String { Namespace := t.Org, Name := t.Repo, Tag := t.Tag })
        (inp.set t.String
          { As := sets.sortedList (sets.Insert
              (sets.NewString (GoMap.index ImageBuildInputs.zero inp t.String).As) p) })
        hrest
    refine ⟨req', inp', ?_, ?_, ?_, ?_⟩
    · rw [discoverInputImagesLoop, ht]
      exact hloop
    · intro k
      rw [hnone k]
      by_cases hk : k = t.String
      · subst hk
        simp only [GoMap.set, if_true]
        constructor
        · rintro ⟨h, _⟩
          cases h
        · rintro ⟨_, h2⟩
          exact absurd rfl (h2 p (List.mem_cons_self p rest) t ht)
      · simp only [GoMap.set, if_neg hk]
        constructor
        · rintro ⟨h1, h2⟩
          refine ⟨h1, ?_⟩
          intro q hq u hu
          rcases List.mem_cons.mp hq with e | e
          · subst e
            rw [ht] at hu
            cases hu
            exact fun e => hk e.symm
          · exact h2 q e u hu
        · rintro ⟨h1, h2⟩
          exact ⟨h1, fun q hq u hu => h2 q (List.mem_cons_of_mem p hq) u hu⟩
    · intro k x
      rw [hAs k x, index_set]
      by_cases hk : k = t.String
      · subst hk
        rw [if_pos rfl, hmem x]
        constructor
        · rintro ((h | h) | ⟨h, u, hu⟩)
          · exact Or.inl h
          · subst h
            exact Or.inr ⟨List.mem_cons_self _ _, t, ht, rfl⟩
          · exact Or.inr ⟨List.mem_cons_of_mem p h, u, hu⟩
        · rintro (h | ⟨h, u, hu, hk⟩)
          · exact Or.inl (Or.inl h)
          · rcases List.mem_cons.mp h with e | e
            · exact Or.inl (Or.inr e)
            · exact Or.inr ⟨e, u, hu, hk⟩
      · rw [if_neg hk]
        constructor
        · rintro (h | ⟨h, u, hu⟩)
          · exact Or.inl h
          · exact Or.inr ⟨List.mem_cons_of_mem p h, u, hu⟩
        · rintro (h | ⟨h, u, hu, hku⟩)
          · exact Or.inl h
          · rcases List.mem_cons.mp h with e | e
            · subst e
              rw [ht] at hu
              cases hu
              exact absurd hku.symm hk
            · exact Or.inr ⟨e, u, hu, hku⟩
    · intro k h
      apply hSorted k
      rw [index_set]
      by_cases hk : k = t.String
      · rw [if_pos hk]
        exact hsorted
      · rw [if_neg hk]
        exact h

/-- The alias map built from pull strings that all parse, started from the empty maps: a
key is absent exactly when no pull string renders to it, the aliases under a key are the
pull strings rendering to it, and every alias list is strictly ascending. -/
theorem discoverInputImages_spec (getPullStrings : Str → Except Error (List Str))
    (dockerfile : Str) (imagePaths : List Str)
    (hget : getPullStrings dockerfile = .ok imagePaths)
    (hparse : ∀ p ∈ imagePaths, ∃ t, orgRepoTagFromPullString p = .ok t) :
    ∃ req inputs, discoverInputImages getPullStrings dockerfile = .ok (req, inputs) ∧
      (∀ k, inputs k = none ↔
        ∀ p ∈ imagePaths, ∀ t, orgRepoTagFromPullString p = .ok t → t.String ≠ k) ∧
      (∀ k x, x ∈ (GoMap.index ImageBuildInputs.zero inputs k).As ↔
        (x ∈ imagePaths ∧ ∃ t, orgRepoTagFromPullString x = .ok t ∧ t.String = k)) ∧
      (∀ k, List.Sorted (fun x y => x < y)
        (GoMap.index ImageBuildInputs.zero inputs k).As) := by
  obtain ⟨req, inputs, hloop, hnone, hAs, hSorted⟩ :=
    discoverInputImagesLoop_spec imagePaths GoMap.empty GoMap.empty hparse
  refine ⟨req, inputs, ?_, ?_, ?_, ?_⟩
  · unfold discoverInputImages
    rw [hget]
    exact hloop
  · intro k
    rw [hnone k]
    simp [GoMap.empty]
  · intro k x
    rw [hAs k x]
    simp [GoMap.empty, GoMap.index, ImageBuildInputs.zero]
  · intro k
    apply hSorted k
    simp [GoMap.empty, GoMap.index, ImageBuildInputs.zero]

/-- Two strictly ascending lists with the same members are equal. -/
theorem sorted_ext (l1 l2 : List Str) (h1 : List.Sorted (fun x y => x < y) l1)
    (h2 : List.Sorted (fun x y => x < y) l2) (h : ∀ x, x ∈ l1 ↔ x ∈ l2) : l1 = l2 :=
  List.eq_of_perm_of_sorted ((List.perm_ext_iff_of_nodup h1.nodup h2.nodup).mpr h) h1 h2

/-! ## Claims about `orgRepoTagFromPullString` and `orgRepoTag.String` -/

/-- C1: a pull string whose split on `/` has one, two or three segments is parsed
successfully; one segment `[r]` gives namespace `_` and repository segment `r`, two
segments `[a, r]` give namespace `a` and repository segment `r`, three segments
`[h, a, r]` give namespace `a` and repository segment `r`; and a repository segment
without `:` is the repository itself, with tag `latest`. -/
theorem orgRepoTagFromPullString_segments (s : Str)
    (hlen : (strings.Split s '/').length = 1 ∨ (strings.Split s '/').length = 2 ∨
      (strings.Split s '/').length = 3) :
    ∃ t, orgRepoTagFromPullString s = .ok t ∧
      (∀ r, strings.Split s '/' = [r] →
        t.Org = "_".toList ∧ t = splitRepoTag ⟨"_".toList, r, "latest".toList⟩ ∧
          (':' ∉ r → t = ⟨"_".toList, r, "latest".toList⟩)) ∧
      (∀ a r, strings.Split s '/' = [a, r] →
        t.Org = a ∧ t = splitRepoTag ⟨a, r, "latest".toList⟩ ∧
          (':' ∉ r → t = ⟨a, r, "latest".toList⟩)) ∧
      (∀ h a r, strings.Split s '/' = [h, a, r] →
        t.Org = a ∧ t = splitRepoTag ⟨a, r, "latest".toList⟩ ∧
          (':' ∉ r → t = ⟨a, r, "latest".toList⟩)) := by
  have hplain : ∀ o r : Str, ':' ∉ r →
      splitRepoTag ⟨o, r, "latest".toList⟩ = ⟨o, r, "latest".toList⟩ := by
    intro o r hr
    apply splitRepoTag_of_count_ne_one
    simp [List.count_eq_zero_of_not_mem hr]
  have heq := orgRepoTagFromPullString_eq s
  match hs : strings.Split s '/' with
  | [] => simp [hs] at hlen
  | [s0] =>
    rw [hs] at heq
    refine ⟨_, heq, ?_, ?_, ?_⟩
    · intro r hr
      cases hr
      exact ⟨splitRepoTag_Org _, rfl, hplain _ _⟩
    · intro a r hr
      cases hr
    · intro h a r hr
      cases hr
  | [s0, s1] =>
    rw [hs] at heq
    refine ⟨_, heq, ?_, ?_, ?_⟩
    · intro r hr
      cases hr
    · intro a r hr
      cases hr
      exact ⟨splitRepoTag_Org _, rfl, hplain _ _⟩
    · intro h a r hr
      cases hr
  | [s0, s1, s2] =>
    rw [hs] at heq
    refine ⟨_, heq, ?_, ?_, ?_⟩
    · intro r hr
      cases hr
    · intro a r hr
      cases hr
    · intro h a r hr
      cases hr
      exact ⟨splitRepoTag_Org _, rfl, hplain _ _⟩
  | _ :: _ :: _ :: _ :: _ => simp [hs] at hlen

/-- Scenario 2 of the specification, an instance of C1: `repo` is parsed to namespace `_`,
repository `repo` and tag `latest`. -/
theorem orgRepoTagFromPullString_segments_witness :
    orgRepoTagFromPullString "repo".toList =
      .ok ⟨"_".toList, "repo".toList, "latest".toList⟩ := by
  obtain ⟨t, ht, h1, _, _⟩ :=
    orgRepoTagFromPullString_segments "repo".toList (Or.inl (by decide))
  rw [ht, (h1 "repo".toList (by decide)).2.2 (by decide)]

/-- C2: the parser fails exactly when the split of the pull string on `/` has a number of
segments other than one, two or three, which is when the string holds at least three
`/`; four or more segments are always rejected, and the empty string is accepted, with
namespace `_`, empty repository and tag `latest`. -/
theorem orgRepoTagFromPullString_error_iff (s : Str) :
    ((∃ e, orgRepoTagFromPullString s = .error e) ↔
      ¬ ((strings.Split s '/').length = 1 ∨ (strings.Split s '/').length = 2 ∨
        (strings.Split s '/').length = 3)) ∧
    ((∃ e, orgRepoTagFromPullString s = .error e) ↔ 3 ≤ s.count '/') ∧
    (4 ≤ (strings.Split s '/').length →
      orgRepoTagFromPullString s = .error (.segmentCount s (strings.Split s '/').length)) ∧
    orgRepoTagFromPullString [] = .ok ⟨"_".toList, [], "latest".toList⟩ := by
  have hcount := length_Split s '/'
  have heq := orgRepoTagFromPullString_eq s
  have key : ((∃ e, orgRepoTagFromPullString s = .error e) ↔
      4 ≤ (strings.Split s '/').length) ∧
      (4 ≤ (strings.Split s '/').length →
        orgRepoTagFromPullString s =
          .error (.segmentCount s (strings.Split s '/').length)) := by
    match hs : strings.Split s '/' with
    | [] => exact absurd hs (Split_ne_nil s '/')
    | [s0] => rw [hs] at heq; simp [heq]
    | [s0, s1] => rw [hs] at heq; simp [heq]
    | [s0, s1, s2] => rw [hs] at heq; simp [heq]
    | s0 :: s1 :: s2 :: s3 :: rest => rw [hs] at heq; simp [heq]
  refine ⟨?_, ?_, key.2, rfl⟩
  · rw [key.1]
    omega
  · rw [key.1]
    omega

/-- An instance of C2: the four segments of `a/b/c/d` are rejected. -/
theorem orgRepoTagFromPullString_error_iff_witness :
    orgRepoTagFromPullString "a/b/c/d".toList =
      .error (.segmentCount "a/b/c/d".toList 4) :=
  (orgRepoTagFromPullString_error_iff "a/b/c/d".toList).2.2.1 (by decide)

/-- C3 as stated fails: the repository segment `b:c:d` of `a/b:c:d` contains `:`, yet it
is not split at its first `:`; it stays whole, with tag `latest`. -/
theorem orgRepoTagFromPullString_two_colons :
    orgRepoTagFromPullString "a/b:c:d".toList =
      .ok ⟨"a".toList, "b:c:d".toList, "latest".toList⟩ ∧
    ¬ (∀ s t r, orgRepoTagFromPullString s = .ok t →
        (strings.Split s '/').getLast? = some r → ':' ∈ r →
          r = t.Repo ++ ':' :: t.Tag ∧ ':' ∉ t.Repo) := by
  refine ⟨rfl, ?_⟩
  intro h
  have h2 := (h "a/b:c:d".toList ⟨"a".toList, "b:c:d".toList, "latest".toList⟩
    "b:c:d".toList rfl rfl (by decide)).2
  exact h2 (by decide)

/-- C3, amended: for an accepted pull string with repository segment `r` (its last
segment), when `r` holds exactly one `:` the repository is the text before it and the tag
the text after it; when `r` holds no `:` or more than one, the repository is the whole of
`r` and the tag is `latest`. -/
theorem orgRepoTagFromPullString_repo_tag (s : Str) (t : orgRepoTag) (r : Str)
    (hok : orgRepoTagFromPullString s = .ok t)
    (hr : (strings.Split s '/').getLast? = some r) :
    (r.count ':' = 1 → r = t.Repo ++ ':' :: t.Tag ∧ ':' ∉ t.Repo ∧ ':' ∉ t.Tag) ∧
    (r.count ':' ≠ 1 → t.Repo = r ∧ t.Tag = "latest".toList) := by
  obtain ⟨o, r', hr', ht, _⟩ := orgRepoTagFromPullString_ok s t hok
  rw [hr] at hr'
  cases hr'
  constructor
  · intro h1
    obtain ⟨a, b, hab, ha, hb, hsplit⟩ :=
      splitRepoTag_of_count_one ⟨o, r, "latest".toList⟩ h1
    rw [hsplit] at ht
    subst ht
    exact ⟨hab, ha, hb⟩
  · intro h1
    rw [splitRepoTag_of_count_ne_one ⟨o, r, "latest".toList⟩ h1] at ht
    subst ht
    exact ⟨rfl, rfl⟩

/-- Scenario 1 of the specification, an instance of the amended C3:
`quay.io/org/repo:v1` is parsed to the repository `repo` and the tag `v1`. -/
theorem orgRepoTagFromPullString_repo_tag_witness :
    orgRepoTagFromPullString "quay.io/org/repo:v1".toList =
      .ok ⟨"org".toList, "repo".toList, "v1".toList⟩ ∧
    "repo:v1".toList = "repo".toList ++ ':' :: "v1".toList ∧
    ':' ∉ "repo".toList ∧ ':' ∉ "v1".toList :=
  ⟨rfl, (orgRepoTagFromPullString_repo_tag "quay.io/org/repo:v1".toList
    ⟨"org".toList, "repo".toList, "v1".toList⟩ "repo:v1".toList rfl rfl).1 (by decide)⟩

/-- C4 as stated fails: `repo:` is accepted and its tag is the empty string. -/
theorem orgRepoTagFromPullString_empty_tag :
    orgRepoTagFromPullString "repo:".toList = .ok ⟨"_".toList, "repo".toList, []⟩ ∧
    ¬ (∀ s t, orgRepoTagFromPullString s = .ok t → t.Tag ≠ []) := by
  refine ⟨rfl, ?_⟩
  intro h
  exact h "repo:".toList ⟨"_".toList, "repo".toList, []⟩ rfl rfl

/-- C4, amended: for an accepted pull string with repository segment `r` (its last
segment), the tag is empty exactly when `r` holds exactly one `:` and ends with it; in
every other case the tag is non-empty. -/
theorem orgRepoTagFromPullString_tag_empty_iff (s : Str) (t : orgRepoTag) (r : Str)
    (hok : orgRepoTagFromPullString s = .ok t)
    (hr : (strings.Split s '/').getLast? = some r) :
    t.Tag = [] ↔ (r.count ':' = 1 ∧ r.getLast? = some ':') := by
  obtain ⟨h1, h2⟩ := repo_tag_of_ok s t r hok hr
  by_cases hc : r.count ':' = 1
  · obtain ⟨hab, hb⟩ := h1 hc
    constructor
    · intro ht
      refine ⟨hc, ?_⟩
      rw [hab, ht]
      simp
    · rintro ⟨_, hlast⟩
      by_contra hne
      obtain ⟨c, cs, htag⟩ := List.exists_cons_of_ne_nil hne
      rw [hab, List.getLast?_append_cons, htag, List.getLast?_cons_cons] at hlast
      exact hb (htag ▸ List.mem_of_getLast?_eq_some hlast)
  · have ht := h2 hc
    constructor
    · intro h
      rw [ht] at h
      exact absurd h (by decide)
    · rintro ⟨h, _⟩
      exact absurd h hc

/-- An instance of the amended C4: the tag `v1` of `quay.io/org/repo:v1` is not empty,
and the repository segment `repo:v1` does not end with `:`. -/
theorem orgRepoTagFromPullString_tag_empty_iff_witness :
    ("v1".toList = [] ↔
      ("repo:v1".toList.count ':' = 1 ∧ "repo:v1".toList.getLast? = some ':')) :=
  orgRepoTagFromPullString_tag_empty_iff "quay.io/org/repo:v1".toList
    ⟨"org".toList, "repo".toList, "v1".toList⟩ "repo:v1".toList rfl rfl

/-- C5 as stated fails: `/repo` is accepted and its namespace is the empty string. -/
theorem orgRepoTagFromPullString_empty_org :
    orgRepoTagFromPullString "/repo".toList = .ok ⟨[], "repo".toList, "latest".toList⟩ ∧
    ¬ (∀ s t, orgRepoTagFromPullString s = .ok t → t.Org ≠ []) := by
  refine ⟨rfl, ?_⟩
  intro h
  exact h "/repo".toList ⟨[], "repo".toList, "latest".toList⟩ rfl rfl

/-- C5, amended: for an accepted pull string, a reference without `/` gets the sentinel
namespace `_`; the namespace is empty exactly when the string has two segments of which
the first is empty, or three segments of which the second is empty; in every other case
the namespace is non-empty. -/
theorem orgRepoTagFromPullString_org_empty_iff (s : Str) (t : orgRepoTag)
    (hok : orgRepoTagFromPullString s = .ok t) :
    ('/' ∉ s → t.Org = "_".toList) ∧
    (t.Org = [] ↔
      ((∃ r, strings.Split s '/' = [[], r]) ∨ ∃ h r, strings.Split s '/' = [h, [], r])) := by
  obtain ⟨o, r, _, ht, hcase⟩ := orgRepoTagFromPullString_ok s t hok
  have hOrg : t.Org = o := by rw [ht, splitRepoTag_Org]
  constructor
  · intro hs
    rw [Split_of_not_mem s '/' hs] at hcase
    rcases hcase with ⟨_, ho⟩ | h | ⟨h, hh⟩
    · rw [hOrg, ho]
    · cases h
    · cases hh
  · rw [hOrg]
    rcases hcase with ⟨h1, ho⟩ | h | ⟨h, hh⟩
    · rw [h1, ho]
      constructor
      · intro e
        exact absurd e (by decide)
      · rintro (⟨r', e⟩ | ⟨h', r', e⟩) <;> cases e
    · rw [h]
      constructor
      · intro e
        exact Or.inl ⟨r, by rw [e]⟩
      · rintro (⟨r', e⟩ | ⟨h', r', e⟩)
        · cases e
          rfl
        · cases e
    · rw [hh]
      constructor
      · intro e
        exact Or.inr ⟨h, r, by rw [e]⟩
      · rintro (⟨r', e⟩ | ⟨h', r', e⟩)
        · cases e
        · cases e
          rfl

/-- An instance of the amended C5: `repo` has no `/` and is given the namespace `_`. -/
theorem orgRepoTagFromPullString_org_empty_iff_witness :
    ('/' ∉ "repo".toList → "_".toList = "_".toList) ∧
    ("_".toList = [] ↔
      ((∃ r, strings.Split "repo".toList '/' = [[], r]) ∨
        ∃ h r, strings.Split "repo".toList '/' = [h, [], r])) :=
  orgRepoTagFromPullString_org_empty_iff "repo".toList
    ⟨"_".toList, "repo".toList, "latest".toList⟩ rfl

/-- C6 as stated fails: `a_b/c:t` and `a/b_c:t` are parsed to two different identities
with the same rendering `a_b_c_t`. -/
theorem orgRepoTag_String_collision :
    orgRepoTagFromPullString "a_b/c:t".toList =
      .ok ⟨"a_b".toList, "c".toList, "t".toList⟩ ∧
    orgRepoTagFromPullString "a/b_c:t".toList =
      .ok ⟨"a".toList, "b_c".toList, "t".toList⟩ ∧
    (⟨"a_b".toList, "c".toList, "t".toList⟩ : orgRepoTag).String = "a_b_c_t".toList ∧
    (⟨"a".toList, "b_c".toList, "t".toList⟩ : orgRepoTag).String = "a_b_c_t".toList ∧
    ¬ (∀ t1 t2 : orgRepoTag, t1.String = t2.String → t1 = t2) := by
  refine ⟨rfl, rfl, rfl, rfl, ?_⟩
  intro h
  exact absurd (h ⟨"a_b".toList, "c".toList, "t".toList⟩
    ⟨"a".toList, "b_c".toList, "t".toList⟩ rfl) (by decide)

/-- C6, amended: the rendering `Org + "_" + Repo + "_" + Tag` is injective on the
identities whose `Org` and `Repo` hold no `_` (the tag may hold any character). -/
theorem orgRepoTag_String_injective (t1 t2 : orgRepoTag)
    (ho1 : '_' ∉ t1.Org) (hr1 : '_' ∉ t1.Repo) (ho2 : '_' ∉ t2.Org) (hr2 : '_' ∉ t2.Repo)
    (h : t1.String = t2.String) : t1 = t2 := by
  obtain ⟨o1, r1, g1⟩ := t1
  obtain ⟨o2, r2, g2⟩ := t2
  simp only [orgRepoTag.String, String.toList, List.append_assoc, List.singleton_append] at h
  simp only at ho1 hr1 ho2 hr2
  obtain ⟨e1, h'⟩ := append_sep_inj '_' o1 o2 _ _ ho1 ho2 h
  obtain ⟨e2, e3⟩ := append_sep_inj '_' r1 r2 _ _ hr1 hr2 h'
  rw [e1, e2, e3]

/-- An instance of the amended C6 at the identity `org`, `repo`, `v_1`. -/
theorem orgRepoTag_String_injective_witness :
    (⟨"org".toList, "repo".toList, "v_1".toList⟩ : orgRepoTag) =
      ⟨"org".toList, "repo".toList, "v_1".toList⟩ :=
  orgRepoTag_String_injective ⟨"org".toList, "repo".toList, "v_1".toList⟩
    ⟨"org".toList, "repo".toList, "v_1".toList⟩ (by decide) (by decide) (by decide)
    (by decide) rfl

/-- C7: the parsed identity does not depend on the registry host: when `h1`, `h2`, `ns`
and `r` hold no `/`, the strings `h1/ns/r`, `h2/ns/r` and `ns/r` are parsed to the same
result, the namespace `ns` with the repository segment `r`. -/
theorem orgRepoTagFromPullString_host_independent (h1 h2 ns r : Str)
    (hh1 : '/' ∉ h1) (hh2 : '/' ∉ h2) (hns : '/' ∉ ns) (hr : '/' ∉ r) :
    orgRepoTagFromPullString (h1 ++ "/".toList ++ ns ++ "/".toList ++ r) =
      orgRepoTagFromPullString (ns ++ "/".toList ++ r) ∧
    orgRepoTagFromPullString (h2 ++ "/".toList ++ ns ++ "/".toList ++ r) =
      orgRepoTagFromPullString (ns ++ "/".toList ++ r) ∧
    orgRepoTagFromPullString (ns ++ "/".toList ++ r) =
      .ok (splitRepoTag ⟨ns, r, "latest".toList⟩) := by
  have h2seg : strings.Split (ns ++ "/".toList ++ r) '/' = [ns, r] := by
    simp only [String.toList, List.append_assoc, List.singleton_append]
    rw [Split_append_sep ns r '/' hns, Split_of_not_mem r '/' hr]
  have h3seg : ∀ h : Str, '/' ∉ h →
      strings.Split (h ++ "/".toList ++ ns ++ "/".toList ++ r) '/' = [h, ns, r] := by
    intro h hh
    simp only [String.toList, List.append_assoc, List.singleton_append, List.cons_append,
      List.nil_append]
    rw [Split_append_sep h _ '/' hh, Split_append_sep ns r '/' hns,
      Split_of_not_mem r '/' hr]
  have e2 : orgRepoTagFromPullString (ns ++ "/".toList ++ r) =
      .ok (splitRepoTag ⟨ns, r, "latest".toList⟩) := by
    rw [orgRepoTagFromPullString_eq, h2seg]
  have e3 : ∀ h : Str, '/' ∉ h →
      orgRepoTagFromPullString (h ++ "/".toList ++ ns ++ "/".toList ++ r) =
        .ok (splitRepoTag ⟨ns, r, "latest".toList⟩) := by
    intro h hh
    rw [orgRepoTagFromPullString_eq, h3seg h hh]
  exact ⟨by rw [e3 h1 hh1, e2], by rw [e3 h2 hh2, e2], e2⟩

/-- An instance of C7: `quay.io/org/repo:v1`, `docker.io/org/repo:v1` and `org/repo:v1`
are parsed to the same identity. -/
theorem orgRepoTagFromPullString_host_independent_witness :
    orgRepoTagFromPullString "quay.io/org/repo:v1".toList =
      orgRepoTagFromPullString "org/repo:v1".toList ∧
    orgRepoTagFromPullString "docker.io/org/repo:v1".toList =
      orgRepoTagFromPullString "org/repo:v1".toList ∧
    orgRepoTagFromPullString "org/repo:v1".toList =
      .ok (splitRepoTag ⟨"org".toList, "repo:v1".toList, "latest".toList⟩) :=
  orgRepoTagFromPullString_host_independent "quay.io".toList "docker.io".toList
    "org".toList "repo:v1".toList (by decide) (by decide) (by decide) (by decide)

/-! ## Claims about the aggregation of `discoverInputImages` -/

/-- C8: when every pull string of the build file parses, `discoverInputImages` succeeds
and, for every key `k`, the alias list under `k` holds exactly the pull strings of the
input whose parsed identity renders to `k`, each one once; so every input with the same
members (a permutation of the list, or the list with repetitions) gives the same alias
map. -/
theorem discoverInputImages_aliases (getPullStrings : Str → Except Error (List Str))
    (dockerfile : Str) (imagePaths : List Str)
    (hget : getPullStrings dockerfile = .ok imagePaths)
    (hparse : ∀ p ∈ imagePaths, ∃ t, orgRepoTagFromPullString p = .ok t) :
    ∃ req inputs, discoverInputImages getPullStrings dockerfile = .ok (req, inputs) ∧
      (∀ k, (GoMap.index ImageBuildInputs.zero inputs k).As.Nodup ∧
        ∀ x, x ∈ (GoMap.index ImageBuildInputs.zero inputs k).As ↔
          (x ∈ imagePaths ∧ ∃ t, orgRepoTagFromPullString x = .ok t ∧ t.String = k)) ∧
      (∀ (getPullStrings' : Str → Except Error (List Str)) (dockerfile' : Str)
          (imagePaths' : List Str),
        getPullStrings' dockerfile' = .ok imagePaths' →
        (∀ x, x ∈ imagePaths' ↔ x ∈ imagePaths) →
        ∃ req', discoverInputImages getPullStrings' dockerfile' = .ok (req', inputs)) := by
  obtain ⟨req, inputs, hok, hnone, hAs, hSorted⟩ :=
    discoverInputImages_spec getPullStrings dockerfile imagePaths hget hparse
  refine ⟨req, inputs, hok, fun k => ⟨(hSorted k).nodup, hAs k⟩, ?_⟩
  intro getPullStrings' dockerfile' imagePaths' hget' hsame
  have hparse' : ∀ p ∈ imagePaths', ∃ t, orgRepoTagFromPullString p = .ok t :=
    fun p hp => hparse p ((hsame p).mp hp)
  obtain ⟨req', inputs', hok', hnone', hAs', hSorted'⟩ :=
    discoverInputImages_spec getPullStrings' dockerfile' imagePaths' hget' hparse'
  have hAseq : ∀ k, (GoMap.index ImageBuildInputs.zero inputs' k).As =
      (GoMap.index ImageBuildInputs.zero inputs k).As := by
    intro k
    apply sorted_ext _ _ (hSorted' k) (hSorted k)
    intro x
    rw [hAs' k x, hAs k x, hsame x]
  have hmap : inputs' = inputs := by
    funext k
    have hn : inputs' k = none ↔ inputs k = none := by
      rw [hnone' k, hnone k]
      constructor
      · intro h p hp
        exact h p ((hsame p).mpr hp)
      · intro h p hp
        exact h p ((hsame p).mp hp)
    have hk := hAseq k
    unfold GoMap.index at hk
    cases h1 : inputs' k with
    | none => rw [hn.mp h1]
    | some i' =>
      cases h2 : inputs k with
      | none => rw [hn.mpr h2] at h1; cases h1
      | some i =>
        rw [h1, h2] at hk
        simp only [Option.getD_some] at hk
        cases i'
        cases i
        simp only at hk
        rw [hk]
  exact ⟨req', hmap ▸ hok'⟩

/-- Scenario 3 of the specification, an instance of C8: the two spellings
`registry.svc.ci.openshift.org/ns/base:latest` and
`registry.ci.openshift.org/ns/base:latest` are both aliases under the key
`ns_base_latest`. -/
theorem discoverInputImages_aliases_witness :
    (∃ req inputs,
      discoverInputImages
          (fun _ => .ok ["registry.svc.ci.openshift.org/ns/base:latest".toList,
            "registry.ci.openshift.org/ns/base:latest".toList])
          "Dockerfile".toList = .ok (req, inputs) ∧
        (GoMap.index ImageBuildInputs.zero inputs "ns_base_latest".toList).As =
          ["registry.ci.openshift.org/ns/base:latest".toList,
            "registry.svc.ci.openshift.org/ns/base:latest".toList]) ∧
    (∃ req inputs,
      discoverInputImages
          (fun _ => .ok ["registry.svc.ci.openshift.org/ns/base:latest".toList,
            "registry.ci.openshift.org/ns/base:latest".toList])
          "Dockerfile".toList = .ok (req, inputs) ∧
        (∀ k, (GoMap.index ImageBuildInputs.zero inputs k).As.Nodup ∧
          ∀ x, x ∈ (GoMap.index ImageBuildInputs.zero inputs k).As ↔
            (x ∈ ["registry.svc.ci.openshift.org/ns/base:latest".toList,
                "registry.ci.openshift.org/ns/base:latest".toList] ∧
              ∃ t, orgRepoTagFromPullString x = .ok t ∧ t.String = k)) ∧
        (∀ (getPullStrings' : Str → Except Error (List Str)) (dockerfile' : Str)
            (imagePaths' : List Str),
          getPullStrings' dockerfile' = .ok imagePaths' →
          (∀ x, x ∈ imagePaths' ↔
            x ∈ ["registry.svc.ci.openshift.org/ns/base:latest".toList,
              "registry.ci.openshift.org/ns/base:latest".toList]) →
          ∃ req', discoverInputImages getPullStrings' dockerfile' = .ok (req', inputs))) :=
  ⟨⟨_, _, rfl, by decide⟩,
    discoverInputImages_aliases _ "Dockerfile".toList
      ["registry.svc.ci.openshift.org/ns/base:latest".toList,
        "registry.ci.openshift.org/ns/base:latest".toList] rfl
      (by
        intro p hp
        simp only [List.mem_cons, List.mem_singleton, List.not_mem_nil, or_false] at hp
        rcases hp with rfl | rfl
        · exact ⟨_, rfl⟩
        · exact ⟨_, rfl⟩)⟩

/-- C9 fails on the code: the pull strings `registry.ci.openshift.org/ns/a_b:c` and
`registry.ci.openshift.org/ns/a:b_c` render to the same key `ns_a_b_c`; both are listed as
aliases under it, the identity stored under it is that of the second, and the first
resolves to another identity. -/
theorem discoverInputImages_key_collision :
    ∃ req inputs,
      discoverInputImages
          (fun _ => .ok ["registry.ci.openshift.org/ns/a_b:c".toList,
            "registry.ci.openshift.org/ns/a:b_c".toList])
          "Dockerfile".toList = .ok (req, inputs) ∧
        req "ns_a_b_c".toList = some ⟨"ns".toList, "a".toList, "b_c".toList⟩ ∧
        (GoMap.index ImageBuildInputs.zero inputs "ns_a_b_c".toList).As =
          ["registry.ci.openshift.org/ns/a:b_c".toList,
            "registry.ci.openshift.org/ns/a_b:c".toList] ∧
        orgRepoTagFromPullString "registry.ci.openshift.org/ns/a_b:c".toList =
          .ok ⟨"ns".toList, "a_b".toList, "c".toList⟩ ∧
        (⟨"ns".toList, "a_b".toList, "c".toList⟩ : orgRepoTag).String = "ns_a_b_c".toList :=
  ⟨_, _, rfl, by decide, by decide, rfl, rfl⟩

/-- C10: when every pull string of the build file parses, every alias list of the map
built by `discoverInputImages` is in strictly ascending lexicographic order. -/
theorem discoverInputImages_aliases_sorted (getPullStrings : Str → Except Error (List Str))
    (dockerfile : Str) (imagePaths : List Str)
    (hget : getPullStrings dockerfile = .ok imagePaths)
    (hparse : ∀ p ∈ imagePaths, ∃ t, orgRepoTagFromPullString p = .ok t) :
    ∃ req inputs, discoverInputImages getPullStrings dockerfile = .ok (req, inputs) ∧
      (∀ k, List.Sorted (fun x y => x < y)
        (GoMap.index ImageBuildInputs.zero inputs k).As) ∧
      (∀ k i, inputs k = some i → List.Sorted (fun x y => x < y) i.As) := by
  obtain ⟨req, inputs, hok, _, _, hSorted⟩ :=
    discoverInputImages_spec getPullStrings dockerfile imagePaths hget hparse
  refine ⟨req, inputs, hok, hSorted, ?_⟩
  intro k i hi
  have h := hSorted k
  unfold GoMap.index at h
  rw [hi] at h
  exact h

/-- An instance of C10: the pull strings `b/x` and `a/x` of one key are stored in
ascending order. -/
theorem discoverInputImages_aliases_sorted_witness :
    (∃ req inputs,
      discoverInputImages (fun _ => .ok ["h2/a/x".toList, "h1/a/x".toList])
          "Dockerfile".toList = .ok (req, inputs) ∧
        (GoMap.index ImageBuildInputs.zero inputs "a_x_latest".toList).As =
          ["h1/a/x".toList, "h2/a/x".toList]) ∧
    (∃ req inputs,
      discoverInputImages (fun _ => .ok ["h2/a/x".toList, "h1/a/x".toList])
          "Dockerfile".toList = .ok (req, inputs) ∧
        (∀ k, List.Sorted (fun x y => x < y)
          (GoMap.index ImageBuildInputs.zero inputs k).As) ∧
        (∀ k i, inputs k = some i → List.Sorted (fun x y => x < y) i.As)) :=
  ⟨⟨_, _, rfl, by decide⟩,
    discoverInputImages_aliases_sorted _ "Dockerfile".toList
      ["h2/a/x".toList, "h1/a/x".toList] rfl
      (by
        intro p hp
        simp only [List.mem_cons, List.mem_singleton, List.not_mem_nil, or_false] at hp
        rcases hp with rfl | rfl
        · exact ⟨_, rfl⟩
        · exact ⟨_, rfl⟩)⟩

/-! ## The scanner loop and the loop of `discoverImages` -/

/-- One turn of the scanner loop: the line adds the match of `registryRegex` when it holds
`FROM ` and the match is not empty. -/
theorem getPullStringsLoop_step (line : Str) (rest images : List Str) :
    getPullStringsLoop (line :: rest) images =
      getPullStringsLoop rest
        (images ++
          if strings.Contains line "FROM ".toList = true ∧ registryRegex.FindString line ≠ []
          then [registryRegex.FindString line] else []) := by
  rw [getPullStringsLoop]
  cases hc : strings.Contains line "FROM ".toList
  · simp
  · by_cases h2 : registryRegex.FindString line = []
    · simp [h2]
    · simp [h2]

theorem getPullStringsLoop_acc (lines images : List Str) :
    getPullStringsLoop lines images = images ++ getPullStringsLoop lines [] := by
  induction lines generalizing images with
  | nil => simp [getPullStringsLoop]
  | cons line rest ih =>
    rw [getPullStringsLoop_step, ih, getPullStringsLoop_step line rest [], ih ([] ++ _)]
    simp

/-- What one line contributes: nothing without `FROM `, otherwise the match of
`registryRegex` when it is not empty. -/
theorem getPullStringsLoop_line (line : Str) :
    getPullStringsLoop [line] [] =
      if strings.Contains line "FROM ".toList = true ∧ registryRegex.FindString line ≠ []
      then [registryRegex.FindString line] else [] := by
  rw [getPullStringsLoop_step, getPullStringsLoop, List.nil_append]

theorem getPullStringsLoop_cons (line : Str) (rest : List Str) :
    getPullStringsLoop (line :: rest) [] =
      getPullStringsLoop [line] [] ++ getPullStringsLoop rest [] := by
  rw [getPullStringsLoop_step, getPullStringsLoop_acc, getPullStringsLoop_line,
    List.nil_append]

theorem getPullStringsLoop_append (l1 l2 : List Str) :
    getPullStringsLoop (l1 ++ l2) [] =
      getPullStringsLoop l1 [] ++ getPullStringsLoop l2 [] := by
  induction l1 with
  | nil => simp [getPullStringsLoop]
  | cons line rest ih =>
    rw [List.cons_append, getPullStringsLoop_cons, ih, getPullStringsLoop_cons line rest,
      List.append_assoc]

/-- The aggregation loop fails at the first pull string that does not parse. -/
theorem discoverInputImagesLoop_error (l : List Str)
    (req : GoMap ImageStreamTagReference) (inp : GoMap ImageBuildInputs)
    (hfail : ∃ p ∈ l, ∃ e, orgRepoTagFromPullString p = .error e) :
    ∃ p ∈ l, ∃ e, orgRepoTagFromPullString p = .error e ∧
      discoverInputImagesLoop l req inp = .error (.parsePullspec p e) := by
  induction l generalizing req inp with
  | nil =>
    obtain ⟨p, hp, _⟩ := hfail
    cases hp
  | cons q rest ih =>
    cases hq : orgRepoTagFromPullString q with
    | error e =>
      exact ⟨q, List.mem_cons_self q rest, e, hq, by rw [discoverInputImagesLoop, hq]⟩
    | ok t =>
      have hrest : ∃ p ∈ rest, ∃ e, orgRepoTagFromPullString p = .error e := by
        obtain ⟨p, hp, e, he⟩ := hfail
        rcases List.mem_cons.mp hp with h | h
        · subst h
          rw [hq] at he
          cases he
        · exact ⟨p, h, e, he⟩
      obtain ⟨p, hp, e, he, hloop⟩ := ih _ _ hrest
      refine ⟨p, List.mem_cons_of_mem q hp, e, he, ?_⟩
      rw [discoverInputImagesLoop, hq]
      exact hloop

/-- The options that `discoverImages` appends for one Dockerfile. -/
theorem discoverImagesLoop_ok (getPullStrings : Str → Except Error (List Str))
    (r : Repository) (l : List Str)
    (acc options : List ReleaseBuildConfigurationOption)
    (hok : discoverImagesLoop getPullStrings r l acc = .ok options) :
    ∃ entries : List (List ReleaseBuildConfigurationOption),
      options = acc ++ entries.flatten ∧
      List.Forall₂
        (fun d e => ∃ req inp path,
          discoverInputImages getPullStrings d = .ok (req, inp) ∧
          dockerfilePath d = some path ∧
          e = [.WithBaseImages req,
            .WithImage r ⟨discoverImageContext d, path, inp⟩])
        l entries := by
  induction l generalizing acc with
  | nil =>
    rw [discoverImagesLoop] at hok
    cases hok
    exact ⟨[], by simp, List.Forall₂.nil⟩
  | cons d rest ih =>
    rw [discoverImagesLoop] at hok
    cases hd : discoverInputImages getPullStrings d with
    | error e =>
      rw [hd] at hok
      cases hok
    | ok res =>
      obtain ⟨req, inp⟩ := res
      rw [hd] at hok
      cases hp : dockerfilePath d with
      | none =>
        rw [hp] at hok
        cases hok
      | some path =>
        rw [hp] at hok
        obtain ⟨entries, hopts, hall⟩ := ih _ hok
        refine ⟨[.WithBaseImages req,
          .WithImage r ⟨discoverImageContext d, path, inp⟩] :: entries, ?_, ?_⟩
        · rw [hopts]
          simp
        · exact List.Forall₂.cons ⟨req, inp, path, hd, hp, rfl⟩ hall

/-- The loop of `discoverImages` fails when `discoverInputImages` fails for one of the
Dockerfiles: with the error of that call, or earlier with the panic of line 62. -/
theorem discoverImagesLoop_error (getPullStrings : Str → Except Error (List Str))
    (r : Repository) (l : List Str) (acc : List ReleaseBuildConfigurationOption)
    (hfail : ∃ d ∈ l, ∃ e, discoverInputImages getPullStrings d = .error e) :
    ∃ e, discoverImagesLoop getPullStrings r l acc = .error e ∧
      ((∃ d ∈ l, discoverInputImages getPullStrings d = .error e) ∨
        ∃ d ∈ l, dockerfilePath d = none) := by
  induction l generalizing acc with
  | nil =>
    obtain ⟨d, hd, _⟩ := hfail
    cases hd
  | cons d rest ih =>
    cases hd : discoverInputImages getPullStrings d with
    | error e =>
      refine ⟨e, ?_, Or.inl ⟨d, List.mem_cons_self d rest, hd⟩⟩
      rw [discoverImagesLoop, hd]
    | ok res =>
      obtain ⟨req, inp⟩ := res
      cases hp : dockerfilePath d with
      | none =>
        refine ⟨.sliceBounds d, ?_, Or.inr ⟨d, List.mem_cons_self d rest, hp⟩⟩
        rw [discoverImagesLoop, hd]
        simp only [hp]
      | some path =>
        have hrest : ∃ d' ∈ rest, ∃ e, discoverInputImages getPullStrings d' = .error e := by
          obtain ⟨d', hd', e, he⟩ := hfail
          rcases List.mem_cons.mp hd' with h | h
          · subst h
            rw [hd] at he
            cases he
          · exact ⟨d', h, e, he⟩
        obtain ⟨e, hloop, hwhich⟩ := ih _ hrest
        refine ⟨e, ?_, ?_⟩
        · rw [discoverImagesLoop, hd]
          simp only [hp]
          exact hloop
        · rcases hwhich with ⟨d', hd', he⟩ | ⟨d', hd', he⟩
          · exact Or.inl ⟨d', List.mem_cons_of_mem d hd', he⟩
          · exact Or.inr ⟨d', List.mem_cons_of_mem d hd', he⟩

/-! ## The match of `registryRegex` -/

theorem stripLiteral_eq_some_iff (l s r : Str) :
    regexp.stripLiteral l s = some r ↔ s = l ++ r := by
  induction l generalizing s with
  | nil =>
    simp only [regexp.stripLiteral, Option.some.injEq, List.nil_append]
  | cons p ps ih =>
    cases s with
    | nil => simp [regexp.stripLiteral]
    | cons c cs =>
      rw [regexp.stripLiteral]
      by_cases h : c = p
      · subst h
        simp [ih]
      · simp [h]

theorem plusRuns_head (cls : Char → Bool) (s : Str) :
    (regexp.plusRuns cls s).head? =
      if s.takeWhile cls = [] then none else some (s.takeWhile cls, s.dropWhile cls) := by
  induction s with
  | nil => simp [regexp.plusRuns]
  | cons c cs ih =>
    rw [regexp.plusRuns]
    by_cases h : cls c = true
    · rw [if_pos h, List.head?_append, List.head?_map, ih]
      by_cases ht : cs.takeWhile cls = []
      · have hd : cs.dropWhile cls = cs := by
          have := List.takeWhile_append_dropWhile cls cs
          rw [ht] at this
          simpa using this
        simp [List.takeWhile_cons, List.dropWhile_cons, h, ht, hd]
      · simp [List.takeWhile_cons, List.dropWhile_cons, h, ht]
    · simp [List.takeWhile_cons, h]

/-- The first match of `ci\.openshift\.org/\S+` at the start of the input. -/
theorem hostRun_head (s : Str) :
    ((regexp.Regexp.concat (.literal "ci.openshift.org/".toList)
        (.classPlus regexp.notSpace)).matchings s).head? =
      match regexp.stripLiteral "ci.openshift.org/".toList s with
      | none => none
      | some rest =>
        if rest.takeWhile regexp.notSpace = [] then none
        else some ("ci.openshift.org/".toList ++ rest.takeWhile regexp.notSpace,
          rest.dropWhile regexp.notSpace) := by
  simp only [regexp.Regexp.matchings]
  cases regexp.stripLiteral "ci.openshift.org/".toList s with
  | none => simp
  | some rest =>
    simp only [List.flatMap_cons, List.flatMap_nil, List.append_nil, List.head?_map,
      plusRuns_head]
    split <;> simp_all

theorem takeWhile_dropWhile_run (p : Char → Bool) (run tail : Str)
    (hrun : ∀ c ∈ run, p c = true) (htail : ∀ c, tail.head? = some c → p c = false) :
    (run ++ tail).takeWhile p = run ∧ (run ++ tail).dropWhile p = tail := by
  induction run with
  | nil =>
    cases tail with
    | nil => simp
    | cons c cs =>
      have hc := htail c rfl
      simp [List.takeWhile_cons, List.dropWhile_cons, hc]
  | cons c cs ih =>
    have hc := hrun c (List.mem_cons_self c cs)
    obtain ⟨h1, h2⟩ := ih (fun d hd => hrun d (List.mem_cons_of_mem c hd))
    simp [List.takeWhile_cons, List.dropWhile_cons, hc, h1, h2]

theorem notSpace_eq_true_iff (c : Char) :
    regexp.notSpace c = true ↔ regexp.isSpace c = false := by
  simp [regexp.notSpace]

/-- The first match of `ci\.openshift\.org/\S+` at the start of the input is the literal
followed by the maximal run of non-whitespace characters, which must not be empty. -/
theorem hostRun_head_iff (s m r : Str) :
    ((regexp.Regexp.concat (.literal "ci.openshift.org/".toList)
        (.classPlus regexp.notSpace)).matchings s).head? = some (m, r) ↔
      ∃ run, s = "ci.openshift.org/".toList ++ run ++ r ∧
        m = "ci.openshift.org/".toList ++ run ∧ run ≠ [] ∧
        (∀ c ∈ run, regexp.isSpace c = false) ∧
        (∀ c, r.head? = some c → regexp.isSpace c = true) := by
  rw [hostRun_head]
  constructor
  · intro h
    cases hstrip : regexp.stripLiteral "ci.openshift.org/".toList s with
    | none =>
      rw [hstrip] at h
      cases h
    | some rest =>
      rw [hstrip] at h
      simp only at h
      by_cases ht : rest.takeWhile regexp.notSpace = []
      · rw [if_pos ht] at h
        cases h
      · rw [if_neg ht] at h
        simp only [Option.some.injEq, Prod.mk.injEq] at h
        obtain ⟨hm, hr⟩ := h
        refine ⟨rest.takeWhile regexp.notSpace, ?_, hm.symm, ht, ?_, ?_⟩
        · rw [(stripLiteral_eq_some_iff _ _ _).mp hstrip, ← hr, List.append_assoc,
            List.takeWhile_append_dropWhile]
        · intro c hc
          exact (notSpace_eq_true_iff c).mp (List.mem_takeWhile_imp hc)
        · intro c hc
          have hnot := List.head?_dropWhile_not regexp.notSpace rest
          rw [hr, hc] at hnot
          simpa [regexp.notSpace] using hnot
  · rintro ⟨run, hs, hm, hne, hrun, htail⟩
    have hstrip : regexp.stripLiteral "ci.openshift.org/".toList s = some (run ++ r) :=
      (stripLiteral_eq_some_iff _ _ _).mpr (by rw [hs, List.append_assoc])
    obtain ⟨h1, h2⟩ := takeWhile_dropWhile_run regexp.notSpace run r
      (fun c hc => (notSpace_eq_true_iff c).mpr (hrun c hc))
      (fun c hc => by simp [regexp.notSpace, htail c hc])
    rw [hstrip]
    simp only [h1, h2]
    rw [if_neg hne, hm]

/-- The match of `registryRegex` at the start of the input, by the three literals of the
expression. -/
theorem registryRegex_matchAt (s : Str) :
    registryRegex.matchAt s =
      match regexp.stripLiteral "registry.".toList s with
      | none => none
      | some s1 =>
        match ((regexp.Regexp.concat (.literal "ci.openshift.org/".toList)
            (.classPlus regexp.notSpace)).matchings s1).head? with
        | some m => some ("registry.".toList ++ m.1)
        | none =>
          match regexp.stripLiteral "svc.".toList s1 with
          | none => none
          | some s2 =>
            (((regexp.Regexp.concat (.literal "ci.openshift.org/".toList)
              (.classPlus regexp.notSpace)).matchings s2).head?).map
                (fun m => "registry.".toList ++ ("svc.".toList ++ m.1)) := by
  unfold registryRegex regexp.Regexp.matchAt
  generalize (regexp.Regexp.concat (.literal "ci.openshift.org/".toList)
    (.classPlus regexp.notSpace)) = Y
  simp only [regexp.Regexp.matchings]
  cases regexp.stripLiteral "registry.".toList s with
  | none => simp
  | some s1 =>
    simp only [List.flatMap_cons, List.flatMap_nil, List.append_nil, List.flatMap_append]
    cases regexp.stripLiteral "svc.".toList s1 with
    | none =>
      simp only [List.flatMap_nil, List.append_nil, List.map_map, List.head?_map,
        List.nil_append]
      cases (Y.matchings s1).head? <;> simp
    | some s2 =>
      simp only [List.flatMap_cons, List.flatMap_nil, List.append_nil, List.map_map,
        List.head?_map, List.nil_append, List.head?_append, List.map_append]
      cases (Y.matchings s1).head? with
      | none =>
        simp
        rfl
      | some m => simp

/-- The match of `registryRegex` at the start of the input is the registry reference that
stands there. -/
theorem registryRegex_matchAt_iff (s found : Str) :
    registryRegex.matchAt s = some found ↔ IsReferenceAt s found := by
  rw [registryRegex_matchAt]
  constructor
  · intro h
    cases h1 : regexp.stripLiteral "registry.".toList s with
    | none =>
      rw [h1] at h
      cases h
    | some s1 =>
      rw [h1] at h
      simp only at h
      have hs := (stripLiteral_eq_some_iff _ _ _).mp h1
      cases hY : ((regexp.Regexp.concat (.literal "ci.openshift.org/".toList)
          (.classPlus regexp.notSpace)).matchings s1).head? with
      | some mr =>
        rw [hY] at h
        simp only [Option.some.injEq] at h
        obtain ⟨m, r⟩ := mr
        obtain ⟨run, hs1, hm, hne, hrun, htail⟩ := (hostRun_head_iff s1 m r).mp hY
        refine ⟨"registry.ci.openshift.org/".toList, run, r, Or.inl rfl, ?_, ?_, hne, hrun,
          htail⟩
        · rw [hs, hs1]
          simp
        · rw [← h]
          simp only [hm]
          simp
      | none =>
        rw [hY] at h
        simp only at h
        cases h2 : regexp.stripLiteral "svc.".toList s1 with
        | none =>
          rw [h2] at h
          cases h
        | some s2 =>
          rw [h2] at h
          simp only at h
          have hs2 := (stripLiteral_eq_some_iff _ _ _).mp h2
          cases hY2 : ((regexp.Regexp.concat (.literal "ci.openshift.org/".toList)
              (.classPlus regexp.notSpace)).matchings s2).head? with
          | none =>
            rw [hY2] at h
            cases h
          | some mr =>
            rw [hY2] at h
            simp only [Option.map_some', Option.some.injEq] at h
            obtain ⟨m, r⟩ := mr
            obtain ⟨run, hs3, hm, hne, hrun, htail⟩ := (hostRun_head_iff s2 m r).mp hY2
            refine ⟨"registry.svc.ci.openshift.org/".toList, run, r, Or.inr rfl, ?_, ?_, hne,
              hrun, htail⟩
            · rw [hs, hs2, hs3]
              simp
            · rw [← h]
              simp only [hm]
              simp
  · rintro ⟨registry, run, tail, hreg, hs, hfound, hne, hrun, htail⟩
    rcases hreg with hreg | hreg
    · have h1 : regexp.stripLiteral "registry.".toList s =
          some ("ci.openshift.org/".toList ++ run ++ tail) :=
        (stripLiteral_eq_some_iff _ _ _).mpr (by rw [hs, hreg]; simp)
      have hY := (hostRun_head_iff ("ci.openshift.org/".toList ++ run ++ tail)
        ("ci.openshift.org/".toList ++ run) tail).mpr ⟨run, rfl, rfl, hne, hrun, htail⟩
      rw [h1]
      simp only [hY]
      rw [hfound, hreg]
      simp
    · have h1 : regexp.stripLiteral "registry.".toList s =
          some ("svc.".toList ++ ("ci.openshift.org/".toList ++ run ++ tail)) :=
        (stripLiteral_eq_some_iff _ _ _).mpr (by rw [hs, hreg]; simp)
      have hnone : ((regexp.Regexp.concat (.literal "ci.openshift.org/".toList)
          (.classPlus regexp.notSpace)).matchings
            ("svc.".toList ++ ("ci.openshift.org/".toList ++ run ++ tail))).head? = none := by
        rw [hostRun_head]
        simp [regexp.stripLiteral]
      have h2 : regexp.stripLiteral "svc.".toList
          ("svc.".toList ++ ("ci.openshift.org/".toList ++ run ++ tail)) =
            some ("ci.openshift.org/".toList ++ run ++ tail) :=
        (stripLiteral_eq_some_iff _ _ _).mpr rfl
      have hY := (hostRun_head_iff ("ci.openshift.org/".toList ++ run ++ tail)
        ("ci.openshift.org/".toList ++ run) tail).mpr ⟨run, rfl, rfl, hne, hrun, htail⟩
      rw [h1]
      simp only [hnone, h2, hY]
      rw [hfound, hreg]
      simp

/-- The leftmost match is what `FindString` returns. -/
theorem FindString_leftmost (re : regexp.Regexp) (pre rest found line : Str)
    (hline : line = pre ++ rest) (hfound : re.matchAt rest = some found)
    (hleft : ∀ pre' rest', line = pre' ++ rest' → pre'.length < pre.length →
      re.matchAt rest' = none) :
    re.FindString line = found := by
  induction pre generalizing line with
  | nil =>
    rw [List.nil_append] at hline
    subst hline
    cases line with
    | nil => rw [regexp.Regexp.FindString, hfound, Option.getD_some]
    | cons c cs => rw [regexp.Regexp.FindString, hfound]
  | cons p ps ih =>
    subst hline
    have h0 : re.matchAt (p :: ps ++ rest) = none :=
      hleft [] (p :: ps ++ rest) rfl (by simp)
    rw [List.cons_append] at h0 ⊢
    rw [regexp.Regexp.FindString, h0]
    apply ih (ps ++ rest) rfl
    intro pre' rest' h hlt
    exact hleft (p :: pre') rest' (by rw [List.cons_append, h, List.cons_append])
      (by simpa using hlt)

/-- Without a match at any position `FindString` returns the empty string. -/
theorem FindString_none (re : regexp.Regexp) (line : Str)
    (hnone : ∀ pre rest, line = pre ++ rest → re.matchAt rest = none) :
    re.FindString line = [] := by
  induction line with
  | nil => rw [regexp.Regexp.FindString, hnone [] [] rfl, Option.getD_none]
  | cons c cs ih =>
    rw [regexp.Regexp.FindString, hnone [] (c :: cs) rfl]
    apply ih
    intro pre rest h
    exact hnone (c :: pre) rest (by rw [h, List.cons_append])

/-! ## Substrings, segments and joins -/

theorem HasPrefix_iff (s p : Str) :
    strings.HasPrefix s p = true ↔ ∃ post, s = p ++ post := by
  induction p generalizing s with
  | nil => simp [strings.HasPrefix]
  | cons c cs ih =>
    cases s with
    | nil => simp [strings.HasPrefix]
    | cons d ds =>
      simp only [strings.HasPrefix, Bool.and_eq_true, decide_eq_true_eq, ih,
        List.cons_append, List.cons.injEq]
      constructor
      · rintro ⟨h, post, hpost⟩
        exact ⟨post, h, hpost⟩
      · rintro ⟨post, h, hpost⟩
        exact ⟨h, post, hpost⟩

theorem Contains_iff (s substr : Str) :
    strings.Contains s substr = true ↔ ∃ pre post, s = pre ++ substr ++ post := by
  induction s with
  | nil =>
    rw [strings.Contains, HasPrefix_iff]
    constructor
    · rintro ⟨post, h⟩
      exact ⟨[], post, by simpa using h⟩
    · rintro ⟨pre, post, h⟩
      have h' := List.nil_eq_append_iff.mp h
      have h'' := List.append_eq_nil.mp h'.1
      exact ⟨[], by rw [h''.2]; rfl⟩
  | cons c cs ih =>
    rw [strings.Contains, Bool.or_eq_true, HasPrefix_iff, ih]
    constructor
    · rintro (⟨post, h⟩ | ⟨pre, post, h⟩)
      · exact ⟨[], post, by simpa using h⟩
      · exact ⟨c :: pre, post, by rw [h]; simp⟩
    · rintro ⟨pre, post, h⟩
      cases pre with
      | nil => exact Or.inl ⟨post, by simpa using h⟩
      | cons d ds =>
        simp only [List.cons_append, List.cons.injEq] at h
        exact Or.inr ⟨ds, post, h.2⟩

theorem Join_Split (s : Str) (sep : Char) : strings.Join (strings.Split s sep) [sep] = s := by
  induction s with
  | nil => rfl
  | cons c cs ih =>
    by_cases hc : c = sep
    · subst hc
      rw [Split_cons_sep]
      cases hs : strings.Split cs c with
      | nil => exact absurd hs (Split_ne_nil cs c)
      | cons b rest =>
        rw [hs] at ih
        rw [strings.Join, ih]
        rfl
    · obtain ⟨seg, segs, h1, h2⟩ := Split_cons_ne c cs sep hc
      rw [h1] at ih
      rw [h2]
      cases segs with
      | nil =>
        rw [strings.Join] at ih ⊢
        rw [ih]
      | cons b rest =>
        rw [strings.Join] at ih ⊢
        rw [← ih]
        simp

theorem not_mem_of_mem_Split (s : Str) (sep : Char) (seg : Str)
    (h : seg ∈ strings.Split s sep) : sep ∉ seg := by
  induction s generalizing seg with
  | nil =>
    simp only [strings.Split, List.mem_singleton] at h
    rw [h]
    simp
  | cons c cs ih =>
    by_cases hc : c = sep
    · subst hc
      rw [Split_cons_sep] at h
      rcases List.mem_cons.mp h with e | e
      · rw [e]
        simp
      · exact ih seg e
    · obtain ⟨seg0, segs, h1, h2⟩ := Split_cons_ne c cs sep hc
      rw [h2] at h
      rcases List.mem_cons.mp h with e | e
      · rw [e]
        intro hm
        rcases List.mem_cons.mp hm with e' | e'
        · exact hc e'.symm
        · exact ih seg0 (by rw [h1]; exact List.mem_cons_self _ _) e'
      · exact ih seg (by rw [h1]; exact List.mem_cons_of_mem _ e)

theorem infix_of_mem_Split (s : Str) (sep : Char) (seg : Str)
    (h : seg ∈ strings.Split s sep) : ∃ pre post, s = pre ++ seg ++ post := by
  induction s generalizing seg with
  | nil =>
    simp only [strings.Split, List.mem_singleton] at h
    exact ⟨[], [], by rw [h]; rfl⟩
  | cons c cs ih =>
    by_cases hc : c = sep
    · subst hc
      rw [Split_cons_sep] at h
      rcases List.mem_cons.mp h with e | e
      · exact ⟨[], c :: cs, by rw [e]; rfl⟩
      · obtain ⟨pre, post, hp⟩ := ih seg e
        exact ⟨c :: pre, post, by rw [hp]; simp⟩
    · obtain ⟨seg0, segs, h1, h2⟩ := Split_cons_ne c cs sep hc
      rw [h2] at h
      rcases List.mem_cons.mp h with e | e
      · have hj := Join_Split cs sep
        rw [h1] at hj
        cases segs with
        | nil =>
          rw [strings.Join] at hj
          exact ⟨[], [], by rw [e, hj]; simp⟩
        | cons b rest =>
          rw [strings.Join] at hj
          exact ⟨[], [sep] ++ strings.Join (b :: rest) [sep], by rw [e, ← hj]; simp⟩
      · obtain ⟨pre, post, hp⟩ := ih seg (by rw [h1]; exact List.mem_cons_of_mem _ e)
        exact ⟨c :: pre, post, by rw [hp]; simp⟩

/-- The expression of line 62 on a path that starts with two segments. -/
theorem dockerfilePath_two_segments (a b rest : Str) (ha : '/' ∉ a) (hb : '/' ∉ b) :
    dockerfilePath (a ++ "/".toList ++ b ++ "/".toList ++ rest) = some rest := by
  have hsplit : strings.Split (a ++ "/".toList ++ b ++ "/".toList ++ rest) '/' =
      a :: b :: strings.Split rest '/' := by
    simp only [String.toList, List.append_assoc, List.singleton_append, List.cons_append,
      List.nil_append]
    rw [Split_append_sep a _ '/' ha, Split_append_sep b _ '/' hb]
  unfold dockerfilePath os.PathSeparator
  simp only [hsplit, List.length_cons, List.drop_succ_cons, List.drop_zero]
  rw [if_pos (by omega), Join_Split]

theorem sort_Strings_perm (l l' : List Str) (h : l.Perm l') :
    sort.Strings l = sort.Strings l' := by
  unfold sort.Strings
  exact List.eq_of_perm_of_sorted
    (((List.perm_insertionSort _ l).trans h).trans (List.perm_insertionSort _ l').symm)
    (List.sorted_insertionSort _ l) (List.sorted_insertionSort _ l')

/-- From the options appended one Dockerfile after the other to the option of one
Dockerfile. -/
theorem mem_of_Forall₂_entries {α : Type} (R : Str → List α → Prop) (l : List Str)
    (entries : List (List α)) (h : List.Forall₂ R l entries) (d : Str) (hd : d ∈ l) :
    ∃ e ∈ entries, R d e := by
  induction h with
  | nil => cases hd
  | cons hR _ ih =>
    rcases List.mem_cons.mp hd with e | e
    · subst e
      exact ⟨_, List.mem_cons_self _ _, hR⟩
    · obtain ⟨e', he', hRe⟩ := ih e
      exact ⟨e', List.mem_cons_of_mem _ he', hRe⟩

/-! ## Keys of the two maps, scanned references, canonical spellings -/

/-- The aggregation loop keeps the key sets of the two maps equal, every base image under
the rendering of its own fields, and every alias list non-empty. -/
theorem discoverInputImagesLoop_keys (l : List Str)
    (req req' : GoMap ImageStreamTagReference) (inp inp' : GoMap ImageBuildInputs)
    (hok : discoverInputImagesLoop l req inp = .ok (req', inp'))
    (hkeys : ∀ k, req k = none ↔ inp k = none)
    (hrender : ∀ k v, req k = some v →
      k = v.Namespace ++ "_".toList ++ v.Name ++ "_".toList ++ v.Tag)
    (hne : ∀ k i, inp k = some i → i.As ≠ []) :
    (∀ k, req' k = none ↔ inp' k = none) ∧
    (∀ k v, req' k = some v →
      k = v.Namespace ++ "_".toList ++ v.Name ++ "_".toList ++ v.Tag) ∧
    (∀ k i, inp' k = some i → i.As ≠ []) := by
  induction l generalizing req inp with
  | nil =>
    rw [discoverInputImagesLoop] at hok
    cases hok
    exact ⟨hkeys, hrender, hne⟩
  | cons p rest ih =>
    rw [discoverInputImagesLoop] at hok
    cases hp : orgRepoTagFromPullString p with
    | error e =>
      rw [hp] at hok
      cases hok
    | ok t =>
      rw [hp] at hok
      apply ih _ _ hok
      · intro k
        by_cases hk : k = t.String
        · simp [GoMap.set, hk]
        · simp only [GoMap.set, if_neg hk]
          exact hkeys k
      · intro k v hv
        by_cases hk : k = t.String
        · simp only [GoMap.set, if_pos hk, Option.some.injEq] at hv
          rw [hk, ← hv]
          rfl
        · simp only [GoMap.set, if_neg hk] at hv
          exact hrender k v hv
      · intro k i hi
        by_cases hk : k = t.String
        · simp only [GoMap.set, if_pos hk, Option.some.injEq] at hi
          rw [← hi]
          intro hnil
          have hmem := (alias_update_spec
            (GoMap.index ImageBuildInputs.zero inp t.String).As p).2 p
          simp only at hnil
          rw [hnil] at hmem
          simp at hmem
        · simp only [GoMap.set, if_neg hk] at hi
          exact hne k i hi

/-- A non-empty result of `FindString` is the match at some position of the line. -/
theorem FindString_some (re : regexp.Regexp) (line found : Str)
    (h : re.FindString line = found) (hne : found ≠ []) :
    ∃ pre rest, line = pre ++ rest ∧ re.matchAt rest = some found := by
  induction line with
  | nil =>
    rw [regexp.Regexp.FindString] at h
    cases hm : re.matchAt [] with
    | none =>
      rw [hm] at h
      exact absurd h.symm hne
    | some m =>
      rw [hm] at h
      exact ⟨[], [], rfl, by rw [hm]; exact congrArg some h⟩
  | cons c cs ih =>
    rw [regexp.Regexp.FindString] at h
    cases hm : re.matchAt (c :: cs) with
    | none =>
      rw [hm] at h
      obtain ⟨pre, rest, hline, hrest⟩ := ih h
      exact ⟨c :: pre, rest, by rw [hline, List.cons_append], hrest⟩
    | some m =>
      rw [hm] at h
      exact ⟨[], c :: cs, rfl, by rw [hm]; exact congrArg some h⟩

/-- Every reference of a scan is a registry reference standing somewhere in one of the
lines. -/
theorem mem_getPullStringsLoop (lines : List Str) (found : Str)
    (h : found ∈ getPullStringsLoop lines []) :
    ∃ line ∈ lines, ∃ pre rest, line = pre ++ rest ∧ IsReferenceAt rest found := by
  induction lines with
  | nil =>
    rw [getPullStringsLoop] at h
    cases h
  | cons line rest ih =>
    rw [getPullStringsLoop_cons, List.mem_append] at h
    rcases h with h | h
    · rw [getPullStringsLoop_line] at h
      split at h
      · rename_i hcond
        rw [List.mem_singleton] at h
        obtain ⟨pre, rest', hline, hm⟩ :=
          FindString_some registryRegex line found h.symm (h ▸ hcond.2)
        exact ⟨line, List.mem_cons_self _ _, pre, rest', hline,
          (registryRegex_matchAt_iff rest' found).mp hm⟩
      · cases h
    · obtain ⟨line', hl, hrest⟩ := ih h
      exact ⟨line', List.mem_cons_of_mem _ hl, hrest⟩

/-! ## Claims about the scanner and about `discoverImages` -/

/-- C11: discovery is all or nothing.  For a build file read without error as a list of
lines, `discoverInputImages` returns an error (and no map) when one of the extracted pull
strings does not parse, and succeeds otherwise; `discoverImages` returns an error (and no
option) when `discoverInputImages` fails for one of the discovered build files, wherever
that file stands; when no path makes the slice expression of line 62 panic, the error is
the one of `discoverInputImages`. -/
theorem discovery_all_or_nothing (host : Host) (r : Repository) :
    (∀ dockerfile lines, host.Open dockerfile = some ⟨lines, false⟩ →
      ((∃ p ∈ getPullStringsLoop lines [], ∃ e, orgRepoTagFromPullString p = .error e) →
        ∃ e, discoverInputImages (getPullStringsFromDockerfile host.Open) dockerfile =
          .error e) ∧
      ((∀ p ∈ getPullStringsLoop lines [], ∃ t, orgRepoTagFromPullString p = .ok t) →
        ∃ req inp, discoverInputImages (getPullStringsFromDockerfile host.Open) dockerfile =
          .ok (req, inp))) ∧
    (∀ dockerfiles, discoverDockerfiles host r = .ok dockerfiles →
      (∃ d ∈ dockerfiles, ∃ e,
        discoverInputImages (getPullStringsFromDockerfile host.Open) d = .error e) →
      ∃ e, discoverImages host r = .error e ∧
        ((∀ d ∈ dockerfiles, dockerfilePath d ≠ none) →
          ∃ d ∈ dockerfiles,
            discoverInputImages (getPullStringsFromDockerfile host.Open) d = .error e)) := by
  constructor
  · intro dockerfile lines hopen
    have hget : getPullStringsFromDockerfile host.Open dockerfile =
        .ok (getPullStringsLoop lines []) := by
      simp [getPullStringsFromDockerfile, hopen]
    constructor
    · intro hfail
      obtain ⟨p, _, e, _, hloop⟩ :=
        discoverInputImagesLoop_error _ GoMap.empty GoMap.empty hfail
      refine ⟨.parsePullspec p e, ?_⟩
      rw [discoverInputImages, hget]
      exact hloop
    · intro hall
      obtain ⟨req, inp, hok, _⟩ := discoverInputImages_spec _ dockerfile _ hget hall
      exact ⟨req, inp, hok⟩
  · intro dockerfiles hfiles hfail
    have hfail' : ∃ d ∈ sort.Strings dockerfiles, ∃ e,
        discoverInputImages (getPullStringsFromDockerfile host.Open) d = .error e := by
      obtain ⟨d, hd, e, he⟩ := hfail
      exact ⟨d, (List.mem_insertionSort _).mpr hd, e, he⟩
    obtain ⟨e, hloop, hwhich⟩ := discoverImagesLoop_error _ r _ [] hfail'
    refine ⟨e, ?_, ?_⟩
    · rw [discoverImages, hfiles]
      exact hloop
    · intro hpath
      rcases hwhich with ⟨d, hd, he⟩ | ⟨d, hd, he⟩
      · exact ⟨d, (List.mem_insertionSort _).mp hd, he⟩
      · exact absurd he (hpath d ((List.mem_insertionSort _).mp hd))

/-- An instance of C11: with a reference of four segments in the second build file,
`discoverImages` returns the parse error and nothing of the first build file. -/
theorem discovery_all_or_nothing_witness :
    discoverImages exampleHostMalformed exampleRepository =
      .error (.parsePullspec "registry.ci.openshift.org/x/y/z".toList
        (.segmentCount "registry.ci.openshift.org/x/y/z".toList 4)) ∧
    ∃ e, discoverImages exampleHostMalformed exampleRepository = .error e ∧
      ((∀ d ∈ [exampleFileB, exampleFileA], dockerfilePath d ≠ none) →
        ∃ d ∈ [exampleFileB, exampleFileA],
          discoverInputImages (getPullStringsFromDockerfile exampleHostMalformed.Open) d =
            .error e) :=
  ⟨rfl, (discovery_all_or_nothing exampleHostMalformed exampleRepository).2
    [exampleFileB, exampleFileA] rfl
    ⟨exampleFileB, by simp, _, rfl⟩⟩

/-- C12: what one line contributes to the scan.  A line without `FROM ` contributes
nothing.  A line with `FROM ` contributes the leftmost registry reference in it, that is
`registry.ci.openshift.org/` or `registry.svc.ci.openshift.org/` followed by a maximal run
of one or more non-whitespace characters, and nothing when no position of the line holds
such a reference. -/
theorem getPullStrings_per_line (line : Str) :
    (strings.Contains line "FROM ".toList = false → getPullStringsLoop [line] [] = []) ∧
    (strings.Contains line "FROM ".toList = true →
      (∀ pre rest found, line = pre ++ rest → IsReferenceAt rest found →
        (∀ pre' rest', line = pre' ++ rest' → pre'.length < pre.length →
          ¬ ∃ found', IsReferenceAt rest' found') →
        getPullStringsLoop [line] [] = [found]) ∧
      ((∀ pre rest, line = pre ++ rest → ¬ ∃ found, IsReferenceAt rest found) →
        getPullStringsLoop [line] [] = [])) := by
  have hnone : ∀ rest, (¬ ∃ found, IsReferenceAt rest found) →
      registryRegex.matchAt rest = none := by
    intro rest h
    cases hm : registryRegex.matchAt rest with
    | none => rfl
    | some found => exact absurd ⟨found, (registryRegex_matchAt_iff rest found).mp hm⟩ h
  refine ⟨?_, ?_⟩
  · intro hfrom
    rw [getPullStringsLoop_line, hfrom]
    simp
  · intro hfrom
    constructor
    · intro pre rest found hline href hleft
      have hfind : registryRegex.FindString line = found :=
        FindString_leftmost registryRegex pre rest found line hline
          ((registryRegex_matchAt_iff rest found).mpr href)
          (fun pre' rest' h hlt => hnone rest' (hleft pre' rest' h hlt))
      have hne : found ≠ [] := by
        obtain ⟨registry, run, tail, _, _, hfound, hrun, _⟩ := href
        rw [hfound]
        intro h
        exact hrun (List.append_eq_nil.mp h).2
      rw [getPullStringsLoop_line, hfind, if_pos ⟨hfrom, hne⟩]
    · intro hno
      have hfind : registryRegex.FindString line = [] :=
        FindString_none registryRegex line (fun pre rest h => hnone rest (hno pre rest h))
      rw [getPullStringsLoop_line, hfind]
      simp

/-- Scenario 4 of the specification, an instance of C12: the line
`FROM registry.ci.openshift.org/ocp/builder:golang` contributes
`registry.ci.openshift.org/ocp/builder:golang`, and `FROM busybox` contributes nothing. -/
theorem getPullStrings_per_line_witness :
    getPullStringsLoop ["FROM registry.ci.openshift.org/ocp/builder:golang".toList] [] =
      ["registry.ci.openshift.org/ocp/builder:golang".toList] ∧
    getPullStringsLoop ["FROM busybox".toList] [] = [] := by
  refine ⟨?_, by decide⟩
  apply (getPullStrings_per_line
    "FROM registry.ci.openshift.org/ocp/builder:golang".toList).2 (by decide)
    |>.1 "FROM ".toList "registry.ci.openshift.org/ocp/builder:golang".toList
  · decide
  · exact ⟨"registry.ci.openshift.org/".toList, "ocp/builder:golang".toList, [],
      Or.inl rfl, by decide, by decide, by decide, by decide, by simp⟩
  · intro pre' rest' hline hlt hex
    obtain ⟨found', href⟩ := hex
    have hm := (registryRegex_matchAt_iff rest' found').mpr href
    have hrest : rest' =
        "FROM registry.ci.openshift.org/ocp/builder:golang".toList.drop pre'.length := by
      rw [hline, List.drop_left]
    have hall : ∀ n, n < 5 → registryRegex.matchAt
        ("FROM registry.ci.openshift.org/ocp/builder:golang".toList.drop n) = none := by
      decide
    rw [hrest, hall pre'.length hlt] at hm
    cases hm

/-- C13: the scan keeps the order of the lines and the repetitions: the scan of `l1 ++ l2`
is the scan of `l1` followed by the scan of `l2`, a line contributes at most one reference,
a line that contributes a reference contributes it once for each of its occurrences, and
the scan of a file read without error is the scan of its lines. -/
theorem getPullStrings_order_duplicates (l1 l2 : List Str) :
    getPullStringsLoop (l1 ++ l2) [] =
      getPullStringsLoop l1 [] ++ getPullStringsLoop l2 [] ∧
    (∀ line, (getPullStringsLoop [line] []).length ≤ 1) ∧
    (∀ line found, getPullStringsLoop [line] [] = [found] →
      getPullStringsLoop [line, line] [] = [found, found]) ∧
    (∀ (openFile : Str → Option DockerfileRead) (f1 f2 f12 : Str),
      openFile f1 = some ⟨l1, false⟩ → openFile f2 = some ⟨l2, false⟩ →
      openFile f12 = some ⟨l1 ++ l2, false⟩ →
      ∃ r1 r2, getPullStringsFromDockerfile openFile f1 = .ok r1 ∧
        getPullStringsFromDockerfile openFile f2 = .ok r2 ∧
        getPullStringsFromDockerfile openFile f12 = .ok (r1 ++ r2)) := by
  refine ⟨getPullStringsLoop_append l1 l2, ?_, ?_, ?_⟩
  · intro line
    rw [getPullStringsLoop_line]
    split <;> simp
  · intro line found h
    rw [getPullStringsLoop_cons, h]
    rfl
  · intro openFile f1 f2 f12 h1 h2 h12
    refine ⟨getPullStringsLoop l1 [], getPullStringsLoop l2 [], ?_, ?_, ?_⟩
    · simp [getPullStringsFromDockerfile, h1]
    · simp [getPullStringsFromDockerfile, h2]
    · simp [getPullStringsFromDockerfile, h12, getPullStringsLoop_append]

/-- An instance of C13: the three lines of `exampleLinesA` scanned twice in a row give the
two references of the file twice, in the order of the lines. -/
theorem getPullStrings_order_duplicates_witness :
    getPullStringsLoop (exampleLinesA ++ exampleLinesA) [] =
      ["registry.ci.openshift.org/ocp/builder:golang".toList,
        "registry.svc.ci.openshift.org/ocp/builder:golang".toList,
        "registry.ci.openshift.org/ocp/builder:golang".toList,
        "registry.svc.ci.openshift.org/ocp/builder:golang".toList] := by
  rw [(getPullStrings_order_duplicates exampleLinesA exampleLinesA).1]
  decide

/-- C14 as stated fails: the path
`o/r/openshift/ci-operator/knative-test-images/b/Dockerfile` has no segment equal to
`test-images`, yet it is classified `TestContext`. -/
theorem discoverImageContext_not_segment :
    discoverImageContext "o/r/openshift/ci-operator/knative-test-images/b/Dockerfile".toList =
      .TestContext ∧
    "test-images".toList ∉
      strings.Split "o/r/openshift/ci-operator/knative-test-images/b/Dockerfile".toList
        os.PathSeparator ∧
    ¬ (∀ p, discoverImageContext p = .TestContext ↔
        "test-images".toList ∈ strings.Split p os.PathSeparator) := by
  refine ⟨by decide, by decide, ?_⟩
  intro h
  exact absurd
    ((h "o/r/openshift/ci-operator/knative-test-images/b/Dockerfile".toList).mp (by decide))
    (by decide)

/-- C14, amended: a build-file path is classified `TestContext` exactly when it contains
`test-images` as a substring, at any position and also inside a longer segment, and
`ProductionContext` otherwise; so a path with a segment equal to `test-images` is
classified `TestContext`. -/
theorem discoverImageContext_iff (p : Str) :
    (discoverImageContext p = .TestContext ↔
      ∃ pre post, p = pre ++ "test-images".toList ++ post) ∧
    (discoverImageContext p = .ProductionContext ↔
      ¬ ∃ pre post, p = pre ++ "test-images".toList ++ post) ∧
    ("test-images".toList ∈ strings.Split p os.PathSeparator →
      discoverImageContext p = .TestContext) := by
  have h1 : discoverImageContext p = .TestContext ↔
      ∃ pre post, p = pre ++ "test-images".toList ++ post := by
    rw [← Contains_iff]
    unfold discoverImageContext
    split <;> simp_all
  have h2 : discoverImageContext p = .ProductionContext ↔
      ¬ ∃ pre post, p = pre ++ "test-images".toList ++ post := by
    rw [← h1]
    cases discoverImageContext p <;> simp
  exact ⟨h1, h2, fun hseg => h1.mpr (infix_of_mem_Split p _ _ hseg)⟩

/-- Scenario 5 of the specification, an instance of the amended C14: a build file under a
directory `test-images` is classified `TestContext`. -/
theorem discoverImageContext_iff_witness :
    discoverImageContext "o/r/openshift/ci-operator/test-images/b/Dockerfile".toList =
      .TestContext :=
  (discoverImageContext_iff "o/r/openshift/ci-operator/test-images/b/Dockerfile".toList).2.2
    (by decide)

/-- C15: the result of `discoverImages` does not depend on the order in which the glob
lists the build files: two machines with the same files whose globs give permutations of
one list yield the same result, and in a successful result the options stand file by file
in the ascending order of the paths. -/
theorem discoverImages_glob_order (host host' : Host) (r : Repository) (l l' : List Str)
    (hopen : host'.Open = host.Open)
    (hfiles : discoverDockerfiles host r = .ok l)
    (hfiles' : discoverDockerfiles host' r = .ok l')
    (hperm : l.Perm l') :
    discoverImages host' r = discoverImages host r ∧
    (∀ options, discoverImages host r = .ok options →
      ∃ entries : List (List ReleaseBuildConfigurationOption),
        options = entries.flatten ∧
        (sort.Strings l).Sorted (fun x y => x ≤ y) ∧ (sort.Strings l).Perm l ∧
        List.Forall₂
          (fun d e => ∃ req inp path,
            discoverInputImages (getPullStringsFromDockerfile host.Open) d = .ok (req, inp) ∧
            dockerfilePath d = some path ∧
            e = [.WithBaseImages req,
              .WithImage r ⟨discoverImageContext d, path, inp⟩])
          (sort.Strings l) entries) := by
  constructor
  · rw [discoverImages, discoverImages, hfiles, hfiles', hopen]
    simp only [sort_Strings_perm l l' hperm]
  · intro options hok
    rw [discoverImages, hfiles] at hok
    obtain ⟨entries, hopts, hall⟩ := discoverImagesLoop_ok _ r _ [] options hok
    exact ⟨entries, by simpa using hopts, List.sorted_insertionSort _ l,
      List.perm_insertionSort _ l, hall⟩

/-- An instance of C15: the glob of `exampleHost` lists `exampleFileB` first and that of
`exampleHostSwapped` lists `exampleFileA` first; both give the same result, with the
options of `exampleFileA` first. -/
theorem discoverImages_glob_order_witness :
    (∃ reqA inpA reqB inpB,
      discoverImages exampleHost exampleRepository =
        .ok [.WithBaseImages reqA,
          .WithImage exampleRepository
            ⟨.ProductionContext,
              "openshift/ci-operator/knative-images/a/Dockerfile".toList, inpA⟩,
          .WithBaseImages reqB,
          .WithImage exampleRepository
            ⟨.TestContext,
              "openshift/ci-operator/knative-test-images/b/Dockerfile".toList, inpB⟩]) ∧
    discoverImages exampleHostSwapped exampleRepository =
      discoverImages exampleHost exampleRepository :=
  ⟨⟨_, _, _, _, rfl⟩,
    (discoverImages_glob_order exampleHost exampleHostSwapped exampleRepository
      [exampleFileB, exampleFileA] [exampleFileA, exampleFileB] rfl rfl rfl
      (List.Perm.swap _ _ _)).1⟩

/-- C16 as stated fails: with the repository root `repo`, of one segment, the build file
`repo/openshift/ci-operator/d1/d2/Dockerfile` is handed over with the `DockerfilePath`
`ci-operator/d1/d2/Dockerfile`, not with its path relative to the root.  A root that
`filepath.Join` cleans to one segment, such as `./r`, gives discovered paths of the same
shape. -/
theorem discoverImages_DockerfilePath_one_segment_root :
    ∃ req inp,
      discoverImages
          { Open := fun _ => some ⟨[], false⟩
            Glob := fun _ => some ["repo/openshift/ci-operator/d1/d2/Dockerfile".toList]
            Join := fun elems => strings.Join elems "/".toList }
          { RepositoryDirectory := "repo".toList } =
        .ok [.WithBaseImages req,
          .WithImage { RepositoryDirectory := "repo".toList }
            ⟨.ProductionContext, "ci-operator/d1/d2/Dockerfile".toList, inp⟩] :=
  ⟨_, _, rfl⟩

/-- C16, amended: the `DockerfilePath` handed over for a discovered build file is the
discovered path, as the glob returns it, without its first two segments, whatever the
repository root; so for a discovered path `<a>/<b>/openshift/ci-operator/<d1>/<d2>/Dockerfile`
whose first two segments `<a>` and `<b>` stand before `openshift`, it is
`openshift/ci-operator/<d1>/<d2>/Dockerfile`. -/
theorem discoverImages_DockerfilePath (host : Host) (r : Repository)
    (dockerfiles : List Str) (options : List ReleaseBuildConfigurationOption)
    (hfiles : discoverDockerfiles host r = .ok dockerfiles)
    (hok : discoverImages host r = .ok options) :
    (∀ a b d1 d2 : Str, '/' ∉ a → '/' ∉ b →
      a ++ "/".toList ++ b ++ "/".toList ++
        ("openshift/ci-operator/".toList ++ d1 ++ "/".toList ++ d2 ++ "/Dockerfile".toList) ∈
          dockerfiles →
      ∃ input, ReleaseBuildConfigurationOption.WithImage r input ∈ options ∧
        input.Context = discoverImageContext
          (a ++ "/".toList ++ b ++ "/".toList ++
            ("openshift/ci-operator/".toList ++ d1 ++ "/".toList ++ d2 ++
              "/Dockerfile".toList)) ∧
        input.DockerfilePath =
          "openshift/ci-operator/".toList ++ d1 ++ "/".toList ++ d2 ++
            "/Dockerfile".toList) ∧
    (∀ d ∈ dockerfiles,
      ∃ input, ReleaseBuildConfigurationOption.WithImage r input ∈ options ∧
        input.Context = discoverImageContext d ∧
        2 ≤ (strings.Split d '/').length ∧
        input.DockerfilePath = strings.Join ((strings.Split d '/').drop 2) "/".toList) := by
  rw [discoverImages, hfiles] at hok
  obtain ⟨entries, hopts, hall⟩ := discoverImagesLoop_ok _ r _ [] options hok
  have hgen : ∀ d ∈ dockerfiles, ∃ input path,
      ReleaseBuildConfigurationOption.WithImage r input ∈ options ∧
        input.Context = discoverImageContext d ∧ dockerfilePath d = some path ∧
        input.DockerfilePath = path := by
    intro d hd
    obtain ⟨e, he, req, inp, path, _, hpath, heq⟩ :=
      mem_of_Forall₂_entries _ _ _ hall d ((List.mem_insertionSort _).mpr hd)
    refine ⟨⟨discoverImageContext d, path, inp⟩, path, ?_, rfl, hpath, rfl⟩
    rw [hopts, List.nil_append, List.mem_flatten]
    exact ⟨e, he, by rw [heq]; simp⟩
  constructor
  · intro a b d1 d2 ha hb hmem
    obtain ⟨input, path, hin, hctx, hpath, hdp⟩ := hgen _ hmem
    refine ⟨input, hin, hctx, ?_⟩
    rw [dockerfilePath_two_segments a b _ ha hb] at hpath
    rw [hdp, ← Option.some.inj hpath]
  · intro d hd
    obtain ⟨input, path, hin, hctx, hpath, hdp⟩ := hgen d hd
    unfold dockerfilePath os.PathSeparator at hpath
    simp only at hpath
    by_cases hlen : 2 ≤ (strings.Split d '/').length
    · rw [if_pos hlen] at hpath
      exact ⟨input, hin, hctx, hlen, by rw [hdp, ← Option.some.inj hpath]; rfl⟩
    · rw [if_neg hlen] at hpath
      cases hpath

/-- An instance of the amended C16: the discovered path
`o/r/openshift/ci-operator/knative-images/a/Dockerfile` of `exampleHost` is handed over
with the `DockerfilePath` `openshift/ci-operator/knative-images/a/Dockerfile`. -/
theorem discoverImages_DockerfilePath_witness :
    ∃ options, discoverImages exampleHost exampleRepository = .ok options ∧
      ∃ input, ReleaseBuildConfigurationOption.WithImage exampleRepository input ∈ options ∧
        input.Context = discoverImageContext
          ("o".toList ++ "/".toList ++ "r".toList ++ "/".toList ++
            ("openshift/ci-operator/".toList ++ "knative-images".toList ++ "/".toList ++
              "a".toList ++ "/Dockerfile".toList)) ∧
        input.DockerfilePath =
          "openshift/ci-operator/".toList ++ "knative-images".toList ++ "/".toList ++
            "a".toList ++ "/Dockerfile".toList :=
  ⟨_, rfl, (discoverImages_DockerfilePath exampleHost exampleRepository
    [exampleFileB, exampleFileA] _ rfl rfl).1 "o".toList "r".toList "knative-images".toList
    "a".toList (by decide) (by decide) (by decide)⟩

/-- C17: when `discoverInputImages` succeeds, the map of required base images and the
alias map have the same keys, every key of the base-image map is
`Namespace + "_" + Name + "_" + Tag` of the entry stored under it, and every alias list is
non-empty. -/
theorem discoverInputImages_keys (getPullStrings : Str → Except Error (List Str))
    (dockerfile : Str) (req : GoMap ImageStreamTagReference) (inp : GoMap ImageBuildInputs)
    (hok : discoverInputImages getPullStrings dockerfile = .ok (req, inp)) :
    (∀ k, req k ≠ none ↔ inp k ≠ none) ∧
    (∀ k v, req k = some v →
      k = v.Namespace ++ "_".toList ++ v.Name ++ "_".toList ++ v.Tag) ∧
    (∀ k i, inp k = some i → i.As ≠ []) := by
  unfold discoverInputImages at hok
  cases hget : getPullStrings dockerfile with
  | error e =>
    rw [hget] at hok
    cases hok
  | ok imagePaths =>
    rw [hget] at hok
    obtain ⟨h1, h2, h3⟩ := discoverInputImagesLoop_keys imagePaths _ req _ inp hok
      (fun k => by simp [GoMap.empty])
      (fun k v hv => by simp [GoMap.empty] at hv)
      (fun k i hi => by simp [GoMap.empty] at hi)
    exact ⟨fun k => not_congr (h1 k), h2, h3⟩

/-- An instance of C17: for the pull strings `registry.ci.openshift.org/ns/a_b:c` and
`registry.ci.openshift.org/ns/a:b_c`, which share the key `ns_a_b_c`. -/
theorem discoverInputImages_keys_witness :
    ∃ req inp,
      discoverInputImages
          (fun _ => .ok ["registry.ci.openshift.org/ns/a_b:c".toList,
            "registry.ci.openshift.org/ns/a:b_c".toList])
          "Dockerfile".toList = .ok (req, inp) ∧
        req "ns_a_b_c".toList = some ⟨"ns".toList, "a".toList, "b_c".toList⟩ ∧
        ((∀ k, req k ≠ none ↔ inp k ≠ none) ∧
          (∀ k v, req k = some v →
            k = v.Namespace ++ "_".toList ++ v.Name ++ "_".toList ++ v.Tag) ∧
          (∀ k i, inp k = some i → i.As ≠ [])) :=
  ⟨_, _, rfl, by decide,
    discoverInputImages_keys
      (fun _ => .ok ["registry.ci.openshift.org/ns/a_b:c".toList,
        "registry.ci.openshift.org/ns/a:b_c".toList])
      "Dockerfile".toList _ _ rfl⟩

/-- C18: every reference recorded by `getPullStringsFromDockerfile` holds a `/` and no
whitespace, so the parser never takes its one-segment branch on it: the namespace of its
identity is a segment of the reference, not the sentinel assigned by the parser, and a
reference with exactly one `/` gets the registry host as its namespace. -/
theorem scanned_reference_namespace (openFile : Str → Option DockerfileRead)
    (filename : Str) (refs : List Str) (found : Str)
    (hscan : getPullStringsFromDockerfile openFile filename = .ok refs)
    (hmem : found ∈ refs) :
    '/' ∈ found ∧ (∀ c ∈ found, regexp.isSpace c = false) ∧
    (∀ r, strings.Split found '/' ≠ [r]) ∧
    (∀ t, orgRepoTagFromPullString found = .ok t →
      ((∃ r, strings.Split found '/' = [t.Org, r]) ∨
        ∃ h r, strings.Split found '/' = [h, t.Org, r])) ∧
    (found.count '/' = 1 →
      ∃ t, orgRepoTagFromPullString found = .ok t ∧
        (t.Org = "registry.ci.openshift.org".toList ∨
          t.Org = "registry.svc.ci.openshift.org".toList)) := by
  have hrefs : ∃ lines, refs = getPullStringsLoop lines [] := by
    unfold getPullStringsFromDockerfile at hscan
    cases hopen : openFile filename with
    | none =>
      rw [hopen] at hscan
      cases hscan
    | some file =>
      rw [hopen] at hscan
      simp only at hscan
      by_cases herr : file.scanErr = true
      · rw [if_pos herr] at hscan
        cases hscan
      · rw [if_neg herr] at hscan
        cases hscan
        exact ⟨file.lines, rfl⟩
  obtain ⟨lines, hlines⟩ := hrefs
  rw [hlines] at hmem
  obtain ⟨_, _, _, _, _, registry, run, tail, hreg, _, hfound, hne, hrun, _⟩ :=
    mem_getPullStringsLoop lines found hmem
  have hhost : ∃ host : Str, registry = host ++ '/' :: [] ∧ '/' ∉ host ∧
      (∀ c ∈ host, regexp.isSpace c = false) ∧
      (host = "registry.ci.openshift.org".toList ∨
        host = "registry.svc.ci.openshift.org".toList) := by
    rcases hreg with h | h
    · exact ⟨"registry.ci.openshift.org".toList, by rw [h]; rfl, by decide, by decide,
        Or.inl rfl⟩
    · exact ⟨"registry.svc.ci.openshift.org".toList, by rw [h]; rfl, by decide, by decide,
        Or.inr rfl⟩
  obtain ⟨host, hregistry, hslash, hspace, hwhich⟩ := hhost
  have hshape : found = host ++ '/' :: run := by
    rw [hfound, hregistry]
    simp
  have hsplit : strings.Split found '/' = host :: strings.Split run '/' := by
    rw [hshape, Split_append_sep host run '/' hslash]
  have hone : ∀ r, strings.Split found '/' ≠ [r] := by
    intro r h
    rw [hsplit] at h
    simp only [List.cons.injEq] at h
    exact Split_ne_nil run '/' h.2
  refine ⟨by rw [hshape]; simp, ?_, hone, ?_, ?_⟩
  · intro c hc
    rw [hshape] at hc
    rcases List.mem_append.mp hc with h | h
    · exact hspace c h
    · rcases List.mem_cons.mp h with e | e
      · rw [e]
        decide
      · exact hrun c e
  · intro t ht
    obtain ⟨o, r, _, htt, hcase⟩ := orgRepoTagFromPullString_ok found t ht
    have hOrg : t.Org = o := by rw [htt, splitRepoTag_Org]
    rcases hcase with ⟨h, _⟩ | h | ⟨h', h⟩
    · exact absurd h (hone r)
    · exact Or.inl ⟨r, by rw [hOrg, h]⟩
    · exact Or.inr ⟨h', r, by rw [hOrg, h]⟩
  · intro hcount
    have hrunslash : '/' ∉ run := by
      rw [hshape, List.count_append, List.count_cons_self,
        List.count_eq_zero_of_not_mem hslash] at hcount
      intro hm
      have := List.count_pos_iff.mpr hm
      omega
    have hparse := orgRepoTagFromPullString_eq found
    rw [hsplit, Split_of_not_mem run '/' hrunslash] at hparse
    refine ⟨_, hparse, ?_⟩
    rw [splitRepoTag_Org]
    exact hwhich

/-- An instance of C18: the reference `registry.ci.openshift.org/base` scanned from
`exampleFileB` has one `/` and gets the namespace `registry.ci.openshift.org`. -/
theorem scanned_reference_namespace_witness :
    orgRepoTagFromPullString "registry.ci.openshift.org/base".toList =
      .ok ⟨"registry.ci.openshift.org".toList, "base".toList, "latest".toList⟩ ∧
    ("registry.ci.openshift.org/base".toList.count '/' = 1 →
      ∃ t, orgRepoTagFromPullString "registry.ci.openshift.org/base".toList = .ok t ∧
        (t.Org = "registry.ci.openshift.org".toList ∨
          t.Org = "registry.svc.ci.openshift.org".toList)) :=
  ⟨rfl, (scanned_reference_namespace exampleHost.Open exampleFileB
    ["registry.ci.openshift.org/base".toList] "registry.ci.openshift.org/base".toList
    rfl (by decide)).2.2.2.2⟩

/-- C19: canonical spellings are fixed points of the parser: when `s` is parsed to `t` and
the repository segment of `s` holds at most one `:`, the string
`t.Org + "/" + t.Repo + ":" + t.Tag` is parsed to `t` again. -/
theorem orgRepoTagFromPullString_canonical (s : Str) (t : orgRepoTag) (r : Str)
    (hok : orgRepoTagFromPullString s = .ok t)
    (hr : (strings.Split s '/').getLast? = some r)
    (hcolon : r.count ':' ≤ 1) :
    orgRepoTagFromPullString (t.Org ++ "/".toList ++ t.Repo ++ ":".toList ++ t.Tag) =
      .ok t := by
  obtain ⟨o, r', hr', ht, hcase⟩ := orgRepoTagFromPullString_ok s t hok
  rw [hr] at hr'
  cases hr'
  have hrmem : r ∈ strings.Split s '/' := List.mem_of_getLast?_eq_some hr
  have hrslash : '/' ∉ r := not_mem_of_mem_Split s '/' r hrmem
  have hoslash : '/' ∉ o := by
    rcases hcase with ⟨_, h⟩ | h | ⟨h', h⟩
    · rw [h]
      decide
    · exact not_mem_of_mem_Split s '/' o (by rw [h]; simp)
    · exact not_mem_of_mem_Split s '/' o (by rw [h]; simp)
  have hparse : ∀ repoSeg : Str, '/' ∉ repoSeg →
      orgRepoTagFromPullString (o ++ '/' :: repoSeg) =
        .ok (splitRepoTag ⟨o, repoSeg, "latest".toList⟩) := by
    intro repoSeg hseg
    rw [orgRepoTagFromPullString_eq, Split_append_sep o repoSeg '/' hoslash,
      Split_of_not_mem repoSeg '/' hseg]
  by_cases h1 : r.count ':' = 1
  · obtain ⟨a, b, hab, _, _, hsplit⟩ := splitRepoTag_of_count_one ⟨o, r, "latest".toList⟩ h1
    rw [hsplit] at ht
    have hcanon : t.Org ++ "/".toList ++ t.Repo ++ ":".toList ++ t.Tag = o ++ '/' :: r := by
      rw [ht]
      simp only at hab
      rw [hab]
      simp
    rw [hcanon, hparse r hrslash, hsplit, ht]
  · have h0 : r.count ':' = 0 := by omega
    have hrcolon : ':' ∉ r := fun hm => by
      have := List.count_pos_iff.mpr hm
      omega
    rw [splitRepoTag_of_count_ne_one ⟨o, r, "latest".toList⟩ h1] at ht
    have hcanon : t.Org ++ "/".toList ++ t.Repo ++ ":".toList ++ t.Tag =
        o ++ '/' :: (r ++ ':' :: "latest".toList) := by
      rw [ht]
      simp
    have hseg : '/' ∉ r ++ ':' :: "latest".toList := by
      intro hm
      rcases List.mem_append.mp hm with h | h
      · exact hrslash h
      · exact absurd h (by decide)
    rw [hcanon, hparse _ hseg, ht]
    unfold splitRepoTag
    simp only
    rw [Split_append_sep r _ ':' hrcolon, Split_of_not_mem _ ':' (by decide)]

/-- An instance of C19: `quay.io/org/repo:v1` is parsed to `org`, `repo`, `v1`, and the
canonical spelling `org/repo:v1` is parsed to the same identity. -/
theorem orgRepoTagFromPullString_canonical_witness :
    orgRepoTagFromPullString "org/repo:v1".toList =
      .ok ⟨"org".toList, "repo".toList, "v1".toList⟩ :=
  orgRepoTagFromPullString_canonical "quay.io/org/repo:v1".toList
    ⟨"org".toList, "repo".toList, "v1".toList⟩ "repo:v1".toList rfl rfl (by decide)

end Prowgen
